import Mathlib

/-!
Verification development for the concorde.js browser-utility modules.

The Browser module (src/unnamed/part_001) and the Cookie module
(src/modules/cookie/src/cookie.js) are embedded shallowly below.  Ambient
browser state (user-agent string, touch indicators, the cookie jar and the
current date) is modelled explicitly as structures; JavaScript string
builtins used by the source (split, includes, toLowerCase,
encodeURIComponent, decodeURIComponent, the cookie lookup regular
expression) are modelled as executable Lean functions over lists of
characters.
-/

set_option autoImplicit false

/-! ### JavaScript string builtins, modelled over lists of characters -/

/-- Model of the JavaScript substring test underlying String.prototype.includes:
true when the second list occurs contiguously inside the first. -/
def listIncludes : List Char → List Char → Bool
  | [], sub => sub.isEmpty
  | c :: t, sub => sub.isPrefixOf (c :: t) || listIncludes t sub

/-- Lower-cased character data of a string (model of String.prototype.toLowerCase
restricted to the ASCII range, which is all the source compares). -/
def lowerStr (s : String) : List Char :=
  s.data.map Char.toLower

/-- Model of the case-insensitive containment test
a.toLowerCase().includes(b.toLowerCase()) used by the Browser module. -/
def jsIncludesCI (a b : String) : Bool :=
  listIncludes (lowerStr a) (lowerStr b)

/-- Case-sensitive containment a.includes(b). -/
def includesStr (a b : String) : Bool :=
  listIncludes a.data b.data

/-- Maximal runs of non-whitespace characters, in order.  The accumulator
holds the current run reversed. -/
def wsTokensGo : List Char → List Char → List (List Char)
  | [], acc => if acc.isEmpty then [] else [acc.reverse]
  | c :: t, acc =>
    if c.isWhitespace then
      if acc.isEmpty then wsTokensGo t [] else acc.reverse :: wsTokensGo t []
    else wsTokensGo t (c :: acc)

/-- Model of the JavaScript split on the regular expression matching one or
more whitespace characters: maximal non-whitespace runs, with an empty
leading (trailing) element when the string starts (ends) with whitespace,
and a single empty element for the empty string. -/
def jsSplitWs (s : String) : List String :=
  let l := s.data
  if l.isEmpty then [""]
  else
    let toks := (wsTokensGo l []).map (fun t => String.mk t)
    let withLead :=
      if (l.headD ' ').isWhitespace then "" :: toks else toks
    if (l.getLastD ' ').isWhitespace then withLead ++ [""] else withLead

/-- Splitter on a character predicate, keeping empty pieces, as in the
JavaScript split on a single-character separator. -/
def splitOnP (p : Char → Bool) : List Char → List (List Char)
  | [] => [[]]
  | c :: t =>
    if p c then [] :: splitOnP p t
    else
      match splitOnP p t with
      | h :: r => (c :: h) :: r
      | [] => [[c]]

/-- Value of a decimal digit character, none for anything else. -/
def digitVal (c : Char) : Option Nat :=
  if c.isDigit then some (c.toNat - 48) else none

/-- Accumulating decimal parser over a digit list. -/
def parseNatAcc : List Char → Nat → Option Nat
  | [], acc => some acc
  | c :: t, acc =>
    match digitVal c with
    | some d => parseNatAcc t (10 * acc + d)
    | none => none

/-- Parse a non-empty all-digit list as a natural number, none otherwise
(model of the numeric coercion applied to version components). -/
def parseNatChars (l : List Char) : Option Nat :=
  if l.isEmpty then none else parseNatAcc l 0

/-! ### Browser module: ambient environment and the version matcher -/

/-- Ambient browser state read by the Browser module: the user-agent string,
the identity and version computed by the Search module, and the two touch
indicators consulted by supportsTouchEvents. -/
structure BrowserEnv where
  userAgent : String
  browserIdentity : String
  currentVersion : List Nat
  hasOnTouchStart : Bool
  hasDocumentTouch : Bool
deriving DecidableEq

/-- Component-wise comparison of two version sequences, left to right, with
components missing on either side read as zero. -/
def versionZeros : List Nat → Ordering
  | [] => Ordering.eq
  | b :: bs =>
    match compare 0 b with
    | Ordering.eq => versionZeros bs
    | o => o

/-- Modelled from the spec: compareVersion lives in the version module of
this repository, which is not under src/; per the spec it compares the
actual sequence with the expected sequence component-wise left to right. -/
def versionCompare : List Nat → List Nat → Ordering
  | [], bs => versionZeros bs
  | a :: as, [] =>
    match compare a 0 with
    | Ordering.eq => versionCompare as []
    | o => o
  | a :: as, b :: bs =>
    match compare a b with
    | Ordering.eq => versionCompare as bs
    | o => o

/-- Modelled from the spec: compareVersion(actual, operator, expected) from
the version module, which is not under src/.  The expected text is split on
the dot character, components are read as numbers (missing or non-numeric
components read as zero), and the comparison is component-wise left to
right per the operator; an unrecognized operator degrades to false. -/
def compareVersion (actual : List Nat) (op : String) (expected : String) : Bool :=
  let exp := (splitOnP (fun c => c = '.') expected.data).map
    (fun p => (parseNatChars p).getD 0)
  let o := versionCompare actual exp
  if op = "<" then decide (o = Ordering.lt)
  else if op = "<=" then decide (o ≠ Ordering.gt)
  else if op = ">" then decide (o = Ordering.gt)
  else if op = ">=" then decide (o ≠ Ordering.lt)
  else if op = "==" || op = "=" then decide (o = Ordering.eq)
  else if op = "!=" then decide (o ≠ Ordering.eq)
  else false

namespace Browser

/-- Embedding of matches(query) from src/unnamed/part_001: split the query
on whitespace, require the current browser identity to contain the first
token case-insensitively, succeed on that alone when nothing follows, and
otherwise compare the current version per the operator and version tokens. -/
def «matches» (env : BrowserEnv) (query : String) : Bool :=
  let result := jsSplitWs query
  let browser := result.headD ""
  if !(jsIncludesCI env.browserIdentity browser) then false
  else if result.length ≤ 1 then true
  else compareVersion env.currentVersion (result.getD 1 "") (result.getD 2 "")

/-- A browser query argument: the source accepts a single string or a list
of query strings. -/
inductive Queries where
  | str (s : String)
  | list (l : List String)

/-- The list of sub-queries denoted by a query argument: a single string is
wrapped into a one-element list, as in the source. -/
def Queries.toList : Queries → List String
  | .str s => [s]
  | .list l => l

/-- Embedding of oneOf(lines) from src/unnamed/part_001: wrap a single
string into a list, then test whether the sub-queries matching the current
browser are more than zero. -/
def oneOf (env : BrowserEnv) (lines : Queries) : Bool :=
  let ls := match lines with
    | .str s => [s]
    | .list l => l
  decide (0 < (ls.filter (fun line => «matches» env line)).length)

/-- Embedding of isOutdated(supportedBrowsers) from src/unnamed/part_001. -/
def isOutdated (env : BrowserEnv) (supportedBrowsers : Queries) : Bool :=
  !(oneOf env supportedBrowsers)

/-- Embedding of isMobile from src/unnamed/part_001: the case-insensitive
mobile-signature alternation tested against the user-agent string. -/
def isMobile (env : BrowserEnv) : Bool :=
  [("Android" : String), "CriOS", "FxiOS", "webOS", "iPhone", "iPod",
    "BlackBerry", "IEMobile", "Opera Mini"].any
    (fun sig => jsIncludesCI env.userAgent sig)

/-- Embedding of isTablet from src/unnamed/part_001: the case-insensitive
iPad test against the user-agent string. -/
def isTablet (env : BrowserEnv) : Bool :=
  jsIncludesCI env.userAgent ("iPad")

/-- Embedding of supportsTouchEvents from src/unnamed/part_001: mobile or
tablet, conjoined with the two ambient touch indicators. -/
def supportsTouchEvents (env : BrowserEnv) : Bool :=
  (isMobile env || isTablet env) && (env.hasOnTouchStart || env.hasDocumentTouch)

/-- Browser information derived from the user-agent string, as described by
the spec data model. -/
structure BrowserInfo where
  string : String
  subString : String
  identity : String
deriving DecidableEq

/-- Modelled from the spec: identify lives in the Search module of this
repository, which is not under src/; it walks a fixed ordered table of
(name, signature) pairs and returns the first entry whose signature occurs
in the user-agent string, else an unknown sentinel with an empty signature. -/
def identify (table : List (String × String)) (userAgent : String) : BrowserInfo :=
  match table.find? (fun entry => includesStr userAgent entry.2) with
  | some entry => ⟨userAgent, entry.2, entry.1⟩
  | none => ⟨userAgent, "", "unknown"⟩

/-- Suffix of the first list after the first occurrence of the second list,
none when the second does not occur. -/
def dropAfterSub : List Char → List Char → Option (List Char)
  | [], needle => if needle.isEmpty then some [] else none
  | c :: t, needle =>
    if needle.isPrefixOf (c :: t) then some ((c :: t).drop needle.length)
    else dropAfterSub t needle

/-- Characters admissible inside a dotted or underscored version number. -/
def isVerChar (c : Char) : Bool :=
  c.isDigit || c = '.' || c = '_'

/-- Modelled from the spec: extractVersion lives in the Search module of
this repository, which is not under src/; it looks up a version pattern
keyed by the subString of the browser information, applies it to the
original user-agent string, splits the matched text on dots and
underscores and returns the numeric components, or the empty sequence when
the lookup or the match fails. -/
def extractVersion (vtable : List (String × String)) (info : BrowserInfo) : List Nat :=
  match vtable.find? (fun entry => entry.1 == info.subString) with
  | none => []
  | some entry =>
    match dropAfterSub info.string.data entry.2.data with
    | none => []
    | some rest =>
      let verChars := (rest.drop 1).takeWhile isVerChar
      if verChars.isEmpty then []
      else (splitOnP (fun c => c = '.' || c = '_') verChars).map
        (fun p => (parseNatChars p).getD 0)

end Browser

/-! ### Percent-encoding: model of encodeURIComponent and decodeURIComponent -/

/-- The punctuation characters left unescaped by encodeURIComponent. -/
def unreservedExtra : List Char :=
  ['-', '_', '.', '!', '~', '*', Char.ofNat 39, '(', ')']

/-- Characters left unescaped by encodeURIComponent: ASCII letters, digits
and the unreserved punctuation marks. -/
def isUnreserved (c : Char) : Bool :=
  ('A' ≤ c && c ≤ 'Z') || ('a' ≤ c && c ≤ 'z') || ('0' ≤ c && c ≤ '9') ||
    unreservedExtra.contains c

/-- The sixteen uppercase hexadecimal digit characters. -/
def hexDigits : List Char :=
  ['0', '1', '2', '3', '4', '5', '6', '7', '8', '9', 'A', 'B', 'C', 'D', 'E', 'F']

/-- Hexadecimal digit character of a nibble. -/
def hexDigit (n : Nat) : Char :=
  hexDigits.getD n 'X'

/-- Value of a hexadecimal digit character, in either case, none otherwise. -/
def hexVal (c : Char) : Option Nat :=
  if c.isDigit then some (c.toNat - 48)
  else if 'A' ≤ c && c ≤ 'F' then some (c.toNat - 55)
  else if 'a' ≤ c && c ≤ 'f' then some (c.toNat - 87)
  else none

/-- UTF-8 byte sequence of a Unicode scalar value. -/
def utf8Bytes (n : Nat) : List Nat :=
  if n < 128 then [n]
  else if n < 2048 then [192 + n / 64, 128 + n % 64]
  else if n < 65536 then [224 + n / 4096, 128 + (n / 64) % 64, 128 + n % 64]
  else [240 + n / 262144, 128 + (n / 4096) % 64, 128 + (n / 64) % 64, 128 + n % 64]

/-- Percent-escape of one byte. -/
def percentByte (b : Nat) : List Char :=
  ['%', hexDigit (b / 16), hexDigit (b % 16)]

/-- Percent-escapes of a byte sequence, concatenated. -/
def bytesToPercent : List Nat → List Char
  | [] => []
  | b :: t => percentByte b ++ bytesToPercent t

/-- Encoding of one character: itself when unreserved, otherwise the
percent-escapes of its UTF-8 bytes. -/
def encChar (c : Char) : List Char :=
  if isUnreserved c then [c] else bytesToPercent (utf8Bytes c.toNat)

/-- Character-by-character encoding of a list. -/
def encodeChars : List Char → List Char
  | [] => []
  | c :: t => encChar c ++ encodeChars t

/-- Model of the encodeURIComponent builtin applied by the cookie module. -/
def encodeURIComponent (s : String) : String :=
  String.mk (encodeChars s.data)

/-- First decoding pass: literal characters stay, a percent sign must be
followed by two hexadecimal digits and yields a byte; anything else is a
decoding error (none), as the builtin throws URIError there. -/
def percentTokens : List Char → Option (List (Char ⊕ Nat))
  | [] => some []
  | c :: rest =>
    if c = '%' then
      match rest with
      | c1 :: c2 :: rest2 =>
        match hexVal c1, hexVal c2 with
        | some hi, some lo =>
          (percentTokens rest2).map (fun t => Sum.inr (16 * hi + lo) :: t)
        | _, _ => none
      | _ => none
    else (percentTokens rest).map (fun t => Sum.inl c :: t)

/-- Validity of an assembled scalar value for a sequence of the given
length: rejects overlong forms, surrogate code points and out-of-range
values, as the Decode algorithm of ECMA-262 does. -/
def utf8Valid (n tot : Nat) : Bool :=
  if tot = 2 then 128 ≤ n
  else if tot = 3 then 2048 ≤ n && !(55296 ≤ n && n < 57344)
  else 65536 ≤ n && n < 1114112

/-- Second decoding pass, as a state machine over the token list: rem
counts continuation bytes still expected, cur is the scalar value built so
far and tot the length of the current sequence.  Literal characters stay;
a leading byte opens a sequence sized by its range; continuation bytes
extend it; anything out of place is a decoding error. -/
def asmGo : List (Char ⊕ Nat) → Nat → Nat → Nat → Option (List Char)
  | [], 0, _, _ => some []
  | [], _ + 1, _, _ => none
  | Sum.inl c :: rest, 0, _, _ => (asmGo rest 0 0 0).map (fun t => c :: t)
  | Sum.inl _ :: _, _ + 1, _, _ => none
  | Sum.inr b :: rest, 0, _, _ =>
    if b < 128 then (asmGo rest 0 0 0).map (fun t => Char.ofNat b :: t)
    else if b < 194 then none
    else if b < 224 then asmGo rest 1 (b - 192) 2
    else if b < 240 then asmGo rest 2 (b - 224) 3
    else if b < 245 then asmGo rest 3 (b - 240) 4
    else none
  | Sum.inr b :: rest, 1, cur, tot =>
    if 128 ≤ b && b < 192 then
      if utf8Valid (cur * 64 + (b - 128)) tot then
        (asmGo rest 0 0 0).map (fun t => Char.ofNat (cur * 64 + (b - 128)) :: t)
      else none
    else none
  | Sum.inr b :: rest, m + 2, cur, tot =>
    if 128 ≤ b && b < 192 then asmGo rest (m + 1) (cur * 64 + (b - 128)) tot
    else none

/-- Second decoding pass: reassemble escape groups as UTF-8 sequences. -/
def utf8Assemble (toks : List (Char ⊕ Nat)) : Option (List Char) :=
  asmGo toks 0 0 0

/-- Decoding over character lists. -/
def decodeChars (l : List Char) : Option (List Char) :=
  (percentTokens l).bind utf8Assemble

/-- Model of the decodeURIComponent builtin applied by the cookie module:
none models the URIError it throws on malformed input. -/
def decodeURIComponent (s : String) : Option String :=
  (decodeChars s.data).map (fun l => String.mk l)

/-! ### Cookie module: options, ambient cookie jar, configure, get, set, unset -/

/-- Cookie options, as in the source: all fields optional, absent fields
modelled as none.  Dates are modelled as abstract instants measured in days
(an integer), which is all the source arithmetic uses. -/
structure SetOptions where
  expires : Option Int := none
  path : Option String := none
  domain : Option String := none
  secure : Option Bool := none
  days : Option Int := none
  raw : Option Bool := none
deriving DecidableEq

/-- Options of a cookie lookup: the default value returned when the lookup
fails, and the raw flag suppressing percent-decoding. -/
structure GetOptions where
  defaultValue : Option String := none
  raw : Bool := false
deriving DecidableEq

/-- State of the cookie module and its ambient environment: the configured
default options, the current date, and the cookie jar as ordered
name-value pairs (both stored in their serialized form). -/
structure CookieState where
  options : SetOptions
  now : Int
  jar : List (String × String)
deriving DecidableEq

/-- Model of Object.assign over two option records: a field of the second
wins when present. -/
def mergeOptions (base extra : SetOptions) : SetOptions where
  expires := extra.expires <|> base.expires
  path := extra.path <|> base.path
  domain := extra.domain <|> base.domain
  secure := extra.secure <|> base.secure
  days := extra.days <|> base.days
  raw := extra.raw <|> base.raw

/-- The option fixup performed by set (cookie.js lines 87-99): a null value
forces days to minus one, and an integer days field turns into an expires
date of the current date plus days. -/
def effectiveOptions (now : Int) (opts : SetOptions) (value : Option String) : SetOptions :=
  let opts1 := if value.isNone then { opts with days := some (-1) } else opts
  match opts1.days with
  | some d => { opts1 with expires := some (now + d) }
  | none => opts1

/-- Decimal digit character. -/
def digitCh (n : Nat) : Char :=
  Char.ofNat (48 + n)

/-- Little-endian decimal digits of a natural number, with fuel bounding
the recursion. -/
def natToRevFuel : Nat → Nat → List Char
  | 0, _ => []
  | fuel + 1, n =>
    if n < 10 then [digitCh n] else digitCh (n % 10) :: natToRevFuel fuel (n / 10)

/-- Decimal digits of a natural number. -/
def natToChars (n : Nat) : List Char :=
  (natToRevFuel (n + 1) n).reverse

/-- Rendering of a model date, the counterpart of Date.prototype.toUTCString:
an injective textual form of the instant. -/
def dateChars (d : Int) : List Char :=
  if d < 0 then '-' :: natToChars d.natAbs else natToChars d.natAbs

/-- Value of a little-endian decimal digit list. -/
def parseRevNat : List Char → Option Nat
  | [] => some 0
  | c :: t =>
    match digitVal c, parseRevNat t with
    | some d, some m => some (10 * m + d)
    | _, _ => none

/-- The environment's reading of a rendered date, partial inverse of
dateChars. -/
def parseDateChars (l : List Char) : Option Int :=
  if l.headD ' ' = '-' then (parseRevNat (l.drop 1).reverse).map (fun n => -(n : Int))
  else (parseRevNat l.reverse).map (fun n => (n : Int))

/-- Join segments with the two-character separator used between cookie
fields. -/
def joinSegs : List (List Char) → List Char
  | [] => []
  | [x] => x
  | x :: rest => x ++ ';' :: ' ' :: joinSegs rest

/-- The ambient cookie string visible through document.cookie: the
name-value pairs joined with the separator. -/
def renderJar (jar : List (String × String)) : List Char :=
  joinSegs (jar.map (fun e => e.1.data ++ '=' :: e.2.data))

/-- Split a written cookie string at each separator. -/
def splitJar : List Char → List (List Char)
  | [] => [[]]
  | [c] => [[c]]
  | c :: c2 :: rest =>
    if c = ';' ∧ c2 = ' ' then [] :: splitJar rest
    else
      match splitJar (c2 :: rest) with
      | h :: r => (c :: h) :: r
      | [] => [[c]]

/-- Name of the written cookie: the first field up to the first equals
sign. -/
def cookieNameOf (kv : List Char) : List Char :=
  kv.takeWhile (fun c => c ≠ '=')

/-- Value of the written cookie: the first field after the first equals
sign. -/
def cookieValueOf (kv : List Char) : List Char :=
  (kv.dropWhile (fun c => c ≠ '=')).drop 1

/-- Model of the browser's document.cookie assignment: the first field
names the cookie; an expires attribute lying in the past deletes it, and
otherwise the pair is updated in place or appended. -/
def applyCookieWrite (now : Int) (jar : List (String × String)) (s : List Char) :
    List (String × String) :=
  let segs := splitJar s
  let kv := segs.headD []
  let name : String := String.mk (cookieNameOf kv)
  let value : String := String.mk (cookieValueOf kv)
  let expired := (segs.drop 1).any (fun seg =>
    ("expires=".data).isPrefixOf seg &&
      (match parseDateChars (seg.drop 8) with
       | some d => decide (d < now)
       | none => false))
  if expired then jar.filter (fun e => e.1 != name)
  else if jar.any (fun e => e.1 == name) then
    jar.map (fun e => if e.1 == name then (e.1, value) else e)
  else jar ++ [(name, value)]

/-- The serialized segments built by set (cookie.js lines 106-129): the
name-value pair first, then expires, path, domain and secure, each only
when present and truthy, in this fixed order. -/
def cookieSegments (safeKey safeValue : String) (opts : SetOptions) : List (List Char) :=
  [safeKey.data ++ '=' :: safeValue.data] ++
    (match opts.expires with
     | some d => [("expires=".data) ++ dateChars d]
     | none => []) ++
    (match opts.path with
     | some p => if p = "" then [] else [("path=".data) ++ p.data]
     | none => []) ++
    (match opts.domain with
     | some p => if p = "" then [] else [("domain=".data) ++ p.data]
     | none => []) ++
    (if opts.secure = some true then [("secure".data)] else [])

/-! ### The lookup regular expression of get: construction, parsing, matching

The source (cookie.js line 59) splices the percent-encoded key into the
regular expression (?:^|; )key=([^;]*).  Percent-encoding leaves the
metacharacters dot, star and the two parentheses unescaped, so such keys
change the meaning of the pattern, and an unbalanced parenthesis makes the
construction throw a SyntaxError.  The model below parses and executes the
reachable regular-expression subset faithfully. -/

/-- Error values of the host builtins invoked by the cookie lookup: a
SyntaxError from constructing an invalid regular expression, and a
URIError from decoding a malformed percent-encoding. -/
inductive JsError where
  | invalidRegex
  | invalidEncoding
deriving DecidableEq

/-- Abstract syntax of the regular-expression subset reachable from the
cookie lookup pattern: literal characters, dot, a character class, the
start anchor, capturing and non-capturing groups with alternation, and the
star quantifier. -/
inductive RegexNode where
  | lit (c : Char)
  | dot
  | cls (neg : Bool) (cs : List Char)
  | anchor
  | group (capture : Option Nat) (alts : List (List RegexNode))
  | star (inner : RegexNode)

/-- Parse the body of a character class up to the closing bracket. -/
def parseClsBody : List Char → Option (List Char × List Char)
  | [] => none
  | ']' :: rest => some ([], rest)
  | c :: rest => (parseClsBody rest).map (fun p => (c :: p.1, p.2))

/-- Parse a character class after the opening bracket, with an optional
negation mark. -/
def parseCls : List Char → Option ((Bool × List Char) × List Char)
  | '^' :: rest => (parseClsBody rest).map (fun p => ((true, p.1), p.2))
  | rest => (parseClsBody rest).map (fun p => ((false, p.1), p.2))

mutual

/-- Parse alternatives separated by vertical bars; capture groups are
numbered by order of their opening parenthesis, threaded through cnt. -/
def parseAlts : Nat → List Char → Nat → Option (List (List RegexNode) × List Char × Nat)
  | 0, _, _ => none
  | fuel + 1, l, cnt =>
    match parseSeq fuel l cnt with
    | none => none
    | some (nodes, rest, cnt2) =>
      match rest with
      | '|' :: rest2 =>
        match parseAlts fuel rest2 cnt2 with
        | none => none
        | some (alts, rest3, cnt3) => some (nodes :: alts, rest3, cnt3)
      | _ => some ([nodes], rest, cnt2)

/-- Parse a sequence of atoms, each optionally starred, stopping at a
vertical bar, a closing parenthesis or the end. -/
def parseSeq : Nat → List Char → Nat → Option (List RegexNode × List Char × Nat)
  | 0, _, _ => none
  | fuel + 1, l, cnt =>
    match l with
    | [] => some ([], [], cnt)
    | ')' :: _ => some ([], l, cnt)
    | '|' :: _ => some ([], l, cnt)
    | _ =>
      match parseAtom fuel l cnt with
      | none => none
      | some (node, rest, cnt2) =>
        match rest with
        | '*' :: rest2 =>
          match parseSeq fuel rest2 cnt2 with
          | none => none
          | some (nodes, rest3, cnt3) => some (RegexNode.star node :: nodes, rest3, cnt3)
        | _ =>
          match parseSeq fuel rest cnt2 with
          | none => none
          | some (nodes, rest3, cnt3) => some (node :: nodes, rest3, cnt3)

/-- Parse one atom: a group, a class, dot, the anchor or a literal; a
quantifier or a closing parenthesis with nothing before it is a syntax
error, as in the host. -/
def parseAtom : Nat → List Char → Nat → Option (RegexNode × List Char × Nat)
  | 0, _, _ => none
  | fuel + 1, l, cnt =>
    match l with
    | '(' :: '?' :: ':' :: rest =>
      match parseAlts fuel rest cnt with
      | some (alts, ')' :: rest2, cnt2) => some (RegexNode.group none alts, rest2, cnt2)
      | _ => none
    | '(' :: rest =>
      match parseAlts fuel rest (cnt + 1) with
      | some (alts, ')' :: rest2, cnt2) =>
        some (RegexNode.group (some (cnt + 1)) alts, rest2, cnt2)
      | _ => none
    | '[' :: rest =>
      match parseCls rest with
      | some ((neg, cs), rest2) => some (RegexNode.cls neg cs, rest2, cnt)
      | none => none
    | '.' :: rest => some (RegexNode.dot, rest, cnt)
    | '^' :: rest => some (RegexNode.anchor, rest, cnt)
    | '*' :: _ => none
    | ')' :: _ => none
    | '|' :: _ => none
    | c :: rest => some (RegexNode.lit c, rest, cnt)
    | [] => none

end

/-- Parse a whole pattern; leftover input (an unmatched closing
parenthesis) or parser failure is the modelled SyntaxError. -/
def parseRegex (l : List Char) : Option (List (List RegexNode)) :=
  match parseAlts (4 * l.length + 8) l 0 with
  | some (alts, [], _) => some alts
  | _ => none

/-- Line terminators, which dot does not match. -/
def isLineTerm (c : Char) : Bool :=
  c = Char.ofNat 10 || c = Char.ofNat 13 || c = Char.ofNat 8232 || c = Char.ofNat 8233

mutual

/-- Backtracking matcher: all ways one node can match at a position, in
the priority order of the host engine, each with its end position and
capture list (group index, start, end; the most recent write first). -/
def matchNode : Nat → RegexNode → List Char → Nat → List (Nat × Nat × Nat) →
    List (Nat × List (Nat × Nat × Nat))
  | 0, _, _, _, _ => []
  | fuel + 1, node, hay, pos, caps =>
    match node with
    | .lit c =>
      match hay.get? pos with
      | some c2 => if c2 = c then [(pos + 1, caps)] else []
      | none => []
    | .dot =>
      match hay.get? pos with
      | some c2 => if isLineTerm c2 then [] else [(pos + 1, caps)]
      | none => []
    | .cls neg cs =>
      match hay.get? pos with
      | some c2 =>
        if neg then (if cs.contains c2 then [] else [(pos + 1, caps)])
        else (if cs.contains c2 then [(pos + 1, caps)] else [])
      | none => []
    | .anchor => if pos = 0 then [(pos, caps)] else []
    | .group idx alts =>
      (matchAlts fuel alts hay pos caps).map (fun r =>
        match idx with
        | some i => (r.1, (i, pos, r.1) :: r.2)
        | none => r)
    | .star inner => matchStar fuel inner hay pos caps
termination_by structural fuel _ _ _ _ => fuel

/-- Greedy star: longer iteration chains first, stopping an iteration that
matched without consuming input, as the host repeat matcher does. -/
def matchStar : Nat → RegexNode → List Char → Nat → List (Nat × Nat × Nat) →
    List (Nat × List (Nat × Nat × Nat))
  | 0, _, _, _, _ => []
  | fuel + 1, inner, hay, pos, caps =>
    ((matchNode fuel inner hay pos caps).filter (fun r => pos < r.1)).flatMap
      (fun r => matchStar fuel inner hay r.1 r.2) ++ [(pos, caps)]
termination_by structural fuel _ _ _ _ => fuel

/-- Match a sequence of nodes. -/
def matchSeq : Nat → List RegexNode → List Char → Nat → List (Nat × Nat × Nat) →
    List (Nat × List (Nat × Nat × Nat))
  | 0, _, _, _, _ => []
  | fuel + 1, nodes, hay, pos, caps =>
    match nodes with
    | [] => [(pos, caps)]
    | n :: rest =>
      (matchNode fuel n hay pos caps).flatMap (fun r => matchSeq fuel rest hay r.1 r.2)
termination_by structural fuel _ _ _ _ => fuel

/-- Match alternatives in order. -/
def matchAlts : Nat → List (List RegexNode) → List Char → Nat → List (Nat × Nat × Nat) →
    List (Nat × List (Nat × Nat × Nat))
  | 0, _, _, _, _ => []
  | fuel + 1, alts, hay, pos, caps => alts.flatMap (fun alt => matchSeq fuel alt hay pos caps)
termination_by structural fuel _ _ _ _ => fuel

end

/-- Leftmost match: try every start position in order and keep the capture
list of the first, highest-priority success, as exec does. -/
def regexExec (fuel : Nat) (alts : List (List RegexNode)) (hay : List Char) :
    Option (List (Nat × Nat × Nat)) :=
  (List.range (hay.length + 1)).findSome? (fun pos =>
    (matchAlts fuel alts hay pos []).head?.map (fun r => r.2))

/-- Content of a capture group, none when the group did not participate in
the match (the undefined result of the host). -/
def capsGet (hay : List Char) (caps : List (Nat × Nat × Nat)) (idx : Nat) :
    Option (List Char) :=
  (caps.find? (fun t => t.1 == idx)).map (fun t => (hay.drop t.2.1).take (t.2.2 - t.2.1))

/-- The pattern source built by get around the encoded key, as on
cookie.js line 59. -/
def cookiePattern (ek : List Char) : List Char :=
  ("(?:^|; )".data) ++ ek ++ ("=([^;]*)".data)

/-- Encoded keys free of the four metacharacters that survive
percent-encoding: for these the lookup regular expression is a literal
anchored search. -/
def regexLiteral (l : List Char) : Bool :=
  l.all (fun c => !(c = '.' || c = '*' || c = '(' || c = ')'))

namespace Cookie

/-- Embedding of configure from cookie.js: replaces the default options
wholesale with a copy of the argument. -/
def configure (st : CookieState) (options : SetOptions) : CookieState :=
  { st with options := options }

/-- The exact string assigned to document.cookie by set: merged options are
fixed up, the key is percent-encoded, the value is stringified, encoded
unless raw, and the segments are joined. -/
def writtenCookie (st : CookieState) (key : String) (value : Option String)
    (options : SetOptions) : List Char :=
  let opts := effectiveOptions st.now (mergeOptions st.options options) value
  let safeKey := encodeURIComponent key
  let safeValue0 := match value with
    | some s => s
    | none => "null"
  let safeValue := if opts.raw = some true then safeValue0 else encodeURIComponent safeValue0
  joinSegs (cookieSegments safeKey safeValue opts)

/-- Embedding of set from cookie.js: build the cookie string and assign it
to the ambient cookie store. -/
def set (st : CookieState) (key : String) (value : Option String)
    (options : SetOptions) : CookieState :=
  { st with jar := applyCookieWrite st.now st.jar (writtenCookie st key value options) }

/-- Embedding of unset from cookie.js: set with the null sentinel. -/
def unset (st : CookieState) (key : String) (options : SetOptions) : CookieState :=
  set st key none options

/-- The anchored lookup at one position performed by the cookie regular
expression: the encoded key followed by an equals sign, capturing the run
of non-semicolon characters after it. -/
def matchAt (l : List Char) (needle : List Char) : Option (List Char) :=
  if (needle ++ ['=']).isPrefixOf l then
    some ((l.drop (needle.length + 1)).takeWhile (fun c => c ≠ ';'))
  else none

/-- Scan for a match at every position preceded by the separator. -/
def cookieScanAux (needle : List Char) : List Char → Option (List Char)
  | [] => none
  | [_] => none
  | c :: c2 :: rest =>
    if c = ';' ∧ c2 = ' ' then
      (matchAt rest needle).orElse (fun _ => cookieScanAux needle (c2 :: rest))
    else cookieScanAux needle (c2 :: rest)

/-- Model of matching the cookie regular expression against the ambient
cookie string: a match at the start, or at any position after the
separator, leftmost first. -/
def cookieScan (needle hay : List Char) : Option (List Char) :=
  (matchAt hay needle).orElse (fun _ => cookieScanAux needle hay)

/-- Embedding of get from cookie.js: after the empty-store check the key is
percent-encoded and spliced into the lookup regular expression.  When the
encoded key is free of the metacharacters that survive percent-encoding,
that regular expression denotes exactly the anchored literal search, run
here as the scan above (a match at the start or after the separator,
leftmost first, capturing the run of non-semicolon characters after the
equals sign); for every other key the regular expression itself is parsed
and executed, a parse failure modelling the SyntaxError thrown by the
construction.  A found value is percent-decoded unless raw, a decoding
failure modelling the URIError; a match whose first capture group did not
participate yields the undefined value, which the source stringifies
before decoding. -/
def get (st : CookieState) (key : String) (opts : GetOptions) :
    Except JsError (Option String) :=
  let cookie := renderJar st.jar
  if cookie.isEmpty then Except.ok opts.defaultValue
  else
    let ek := (encodeURIComponent key).data
    if regexLiteral ek then
      match cookieScan ek cookie with
      | none => Except.ok opts.defaultValue
      | some captured =>
        if opts.raw then Except.ok (some (String.mk captured))
        else
          match decodeURIComponent (String.mk captured) with
          | some v => Except.ok (some v)
          | none => Except.error JsError.invalidEncoding
    else
      match parseRegex (cookiePattern ek) with
      | none => Except.error JsError.invalidRegex
      | some alts =>
        match regexExec (((cookiePattern ek).length + 2) * (cookie.length + 2) + 16)
            alts cookie with
        | none => Except.ok opts.defaultValue
        | some caps =>
          match capsGet cookie caps 1 with
          | some captured =>
            if opts.raw then Except.ok (some (String.mk captured))
            else
              match decodeURIComponent (String.mk captured) with
              | some v => Except.ok (some v)
              | none => Except.error JsError.invalidEncoding
          | none =>
            if opts.raw then Except.ok none
            else
              match decodeURIComponent ("undefined") with
              | some v => Except.ok (some v)
              | none => Except.error JsError.invalidEncoding

end Cookie

/-- Names admissible in a well-formed cookie jar: no separator and no
equals sign, as the serialized form would otherwise be ambiguous. -/
def goodName (s : String) : Prop :=
  ∀ c ∈ s.data, c ≠ ';' ∧ c ≠ '='

/-- Values admissible in a well-formed cookie jar: no separator. -/
def goodValue (s : String) : Prop :=
  ∀ c ∈ s.data, c ≠ ';'

/-- Well-formed cookie jar: every entry has an unambiguous serialized
form. -/
def wfJar (jar : List (String × String)) : Prop :=
  ∀ e ∈ jar, goodName e.1 ∧ goodValue e.2

/-- Keys whose encoded form, spliced into the lookup regular expression,
is matched literally: the unreserved characters that are also regular
expression metacharacters are excluded; the model of the lookup is only
faithful for such keys. -/
def regexSafeKey (k : String) : Prop :=
  ∀ c ∈ k.data, c ≠ '.' ∧ c ≠ '*' ∧ c ≠ '(' ∧ c ≠ ')'

/-! ### Claims about the Browser module -/

/-- Appending a zero component to the actual version sequence does not
change the comparison: a component missing on either side is read as zero. -/
theorem versionCompare_append_zero (a b : List Nat) :
    versionCompare (a ++ [0]) b = versionCompare a b := by
  induction a generalizing b with
  | nil =>
    cases b with
    | nil => rfl
    | cons x xs => simp [versionCompare, versionZeros]
  | cons x xs ih =>
    cases b with
    | nil =>
      simp only [List.cons_append, versionCompare]
      cases compare x 0 <;> simp [ih]
    | cons y ys =>
      simp only [List.cons_append, versionCompare]
      cases compare x y <;> simp [ih]

/-- C1: matches(q) splits q on whitespace, returns false unless the current
browser identity contains the first token as a case-insensitive substring,
returns true on the name match alone when no further tokens follow, and
otherwise returns compareVersion of the current version against the second
and third tokens. -/
theorem c1_matches_query_semantics (env : BrowserEnv) (q : String) :
    Browser.«matches» env q =
      (jsIncludesCI env.browserIdentity ((jsSplitWs q).headD "") &&
        (decide ((jsSplitWs q).length ≤ 1) ||
          compareVersion env.currentVersion ((jsSplitWs q).getD 1 "")
            ((jsSplitWs q).getD 2 ""))) := by
  unfold Browser.«matches»
  by_cases h : jsIncludesCI env.browserIdentity ((jsSplitWs q).headD "") = true
  · by_cases h2 : (jsSplitWs q).length ≤ 1 <;> simp [h, h2]
  · rw [Bool.not_eq_true] at h
    simp [h]

/-- C2: compareVersion compares the actual sequence against the dotted
expected text component-wise left to right, reading components missing on
either side as zero; in particular the three examples of the spec hold. -/
theorem c2_compareVersion_componentwise :
    (∀ (a : List Nat) (op e : String),
        compareVersion (a ++ [0]) op e = compareVersion a op e) ∧
    compareVersion [62, 0, 3202, 94] (">=") ("62.0") = true ∧
    compareVersion [5, 0] ("<") ("6") = true ∧
    compareVersion [1, 2] ("==") ("1.2.0") = true := by
  refine ⟨?_, by decide, by decide, by decide⟩
  intro a op e
  unfold compareVersion
  simp only [versionCompare_append_zero]

/-- C3: isOutdated is the boolean negation of oneOf, and oneOf holds exactly
when matches holds for at least one sub-query, a single string being read
as a one-element list. -/
theorem c3_isOutdated_neg_oneOf (env : BrowserEnv) (q : Browser.Queries) :
    Browser.isOutdated env q = !(Browser.oneOf env q) ∧
      (Browser.oneOf env q = true ↔
        ∃ s ∈ q.toList, Browser.«matches» env s = true) := by
  refine ⟨rfl, ?_⟩
  unfold Browser.oneOf
  cases q <;>
    simp [Browser.Queries.toList, List.length_pos_iff_exists_mem, List.mem_filter]

/-- C9: identify walks the ordered signature table and returns the first
entry whose signature occurs in the user-agent string; when no entry
matches it returns the unknown sentinel, on which extractVersion returns
the empty version sequence (assuming the version table keys are the
non-empty signature substrings). -/
theorem c9_identify_first_match_else_unknown :
    (∀ (name sig ua : String) (rest : List (String × String)),
        Browser.identify ((name, sig) :: rest) ua =
          if includesStr ua sig then ⟨ua, sig, name⟩ else Browser.identify rest ua) ∧
    (∀ (table vtable : List (String × String)) (ua : String),
        (∀ e ∈ table, includesStr ua e.2 = false) →
        (∀ e ∈ vtable, e.1 ≠ "") →
        Browser.identify table ua = ⟨ua, "", "unknown"⟩ ∧
          Browser.extractVersion vtable (Browser.identify table ua) = []) := by
  constructor
  · intro name sig ua rest
    unfold Browser.identify
    by_cases h : includesStr ua sig = true <;> simp [List.find?, h]
  · intro table vtable ua htab hvt
    have hfind : table.find? (fun entry => includesStr ua entry.2) = none := by
      rw [List.find?_eq_none]
      intro e he
      simp [htab e he]
    have hid : Browser.identify table ua = ⟨ua, "", "unknown"⟩ := by
      unfold Browser.identify
      rw [hfind]
    refine ⟨hid, ?_⟩
    rw [hid]
    unfold Browser.extractVersion
    have hv : vtable.find? (fun entry => entry.1 == ("" : String)) = none := by
      rw [List.find?_eq_none]
      intro e he
      simpa using hvt e he
    rw [hv]

/-- Witness for C9 at a concrete table and user-agent string. -/
theorem c9_witness :
    Browser.identify [(("Chrome" : String), ("Chrome" : String))] ("xyz") =
        ⟨("xyz"), "", "unknown"⟩ ∧
      Browser.extractVersion [(("Chrome" : String), ("Version" : String))]
        (Browser.identify [(("Chrome" : String), ("Chrome" : String))] ("xyz")) = [] :=
  c9_identify_first_match_else_unknown.2
    [(("Chrome" : String), ("Chrome" : String))]
    [(("Chrome" : String), ("Version" : String))] ("xyz") (by decide) (by decide)

/-- C10: whenever supportsTouchEvents holds, isMobile or isTablet holds as
well: the touch-capability flag is conjoined with the mobile and tablet
predicates. -/
theorem c10_touch_implies_mobile_or_tablet (env : BrowserEnv)
    (h : Browser.supportsTouchEvents env = true) :
    Browser.isMobile env = true ∨ Browser.isTablet env = true := by
  simp only [Browser.supportsTouchEvents, Bool.and_eq_true, Bool.or_eq_true] at h
  exact h.1

/-- Witness for C10 at a concrete environment with an iPad user agent. -/
theorem c10_witness :
    Browser.supportsTouchEvents ⟨"iPad", "Safari", [], true, false⟩ = true ∧
      (Browser.isMobile ⟨"iPad", "Safari", [], true, false⟩ = true ∨
        Browser.isTablet ⟨"iPad", "Safari", [], true, false⟩ = true) :=
  ⟨by decide, c10_touch_implies_mobile_or_tablet ⟨"iPad", "Safari", [], true, false⟩ (by decide)⟩

/-! ### Round trip of decoding after encoding -/

/-- Scalar-value bounds of a character: below the surrogate range or
strictly between it and the Unicode bound. -/
theorem char_toNat_valid (c : Char) :
    c.toNat < 55296 ∨ (57343 < c.toNat ∧ c.toNat < 1114112) := by
  rcases c.valid with h | ⟨h1, h2⟩
  · exact Or.inl (UInt32.toNat_lt_of_lt (by decide) h)
  · exact Or.inr ⟨UInt32.lt_toNat_of_lt (by decide) h1, UInt32.toNat_lt_of_lt (by decide) h2⟩

/-- Reading back a nibble written as an uppercase hexadecimal digit. -/
theorem hexVal_hexDigit_fin : ∀ n : Fin 16, hexVal (hexDigit n.val) = some n.val := by
  decide

/-- Reading back a nibble written as an uppercase hexadecimal digit. -/
theorem hexVal_hexDigit (n : Nat) (h : n < 16) : hexVal (hexDigit n) = some n :=
  hexVal_hexDigit_fin ⟨n, h⟩

/-- Tokenizing a literal (non-percent) character. -/
theorem percentTokens_cons_of_ne (c : Char) (h : ¬c = '%') (rest : List Char) :
    percentTokens (c :: rest) = (percentTokens rest).map (fun t => Sum.inl c :: t) := by
  rw [percentTokens.eq_def]
  dsimp only
  rw [if_neg h]

/-- Tokenizing one percent-escaped byte. -/
theorem percentTokens_percentByte (b : Nat) (hb : b < 256) (rest : List Char) :
    percentTokens (percentByte b ++ rest) =
      (percentTokens rest).map (fun t => Sum.inr b :: t) := by
  have h1 : hexVal (hexDigit (b / 16)) = some (b / 16) := hexVal_hexDigit _ (by omega)
  have h2 : hexVal (hexDigit (b % 16)) = some (b % 16) := hexVal_hexDigit _ (by omega)
  show percentTokens ('%' :: hexDigit (b / 16) :: hexDigit (b % 16) :: rest) = _
  rw [percentTokens.eq_def]
  dsimp only
  rw [if_pos rfl]
  rw [h1, h2]
  dsimp only
  rw [show 16 * (b / 16) + b % 16 = b from by omega]

/-- Tokenizing a percent-escaped byte sequence. -/
theorem percentTokens_bytesToPercent (bs : List Nat) (h : ∀ b ∈ bs, b < 256)
    (rest : List Char) :
    percentTokens (bytesToPercent bs ++ rest) =
      (percentTokens rest).map (fun t => bs.map Sum.inr ++ t) := by
  induction bs with
  | nil => cases h0 : percentTokens rest <;> simp [bytesToPercent, h0]
  | cons b t ih =>
    simp only [bytesToPercent, List.append_assoc]
    rw [percentTokens_percentByte b (h b (by simp)) _,
      ih (fun x hx => h x (by simp [hx]))]
    cases percentTokens rest <;> simp

/-- The UTF-8 bytes of an in-range scalar value are bytes. -/
theorem utf8Bytes_lt (n : Nat) (h : n < 1114112) : ∀ b ∈ utf8Bytes n, b < 256 := by
  intro b hb
  unfold utf8Bytes at hb
  split_ifs at hb with h1 h2 h3
  · simp at hb; omega
  · simp at hb; rcases hb with rfl | rfl <;> omega
  · simp at hb; rcases hb with rfl | rfl | rfl <;> omega
  · simp at hb; rcases hb with rfl | rfl | rfl | rfl <;> omega

/-- Reassembling one byte below 128. -/
theorem utf8Assemble_one (b : Nat) (toks : List (Char ⊕ Nat)) (h : b < 128) :
    utf8Assemble (Sum.inr b :: toks) =
      (utf8Assemble toks).map (fun t => Char.ofNat b :: t) := by
  unfold utf8Assemble
  rw [asmGo.eq_5, if_pos h]

/-- Reassembling a two-byte UTF-8 sequence. -/
theorem utf8Assemble_two (b1 b2 : Nat) (toks : List (Char ⊕ Nat))
    (h1 : 194 ≤ b1) (h2 : b1 < 224) (h3 : 128 ≤ b2) (h4 : b2 < 192) :
    utf8Assemble (Sum.inr b1 :: Sum.inr b2 :: toks) =
      (utf8Assemble toks).map (fun t => Char.ofNat ((b1 - 192) * 64 + (b2 - 128)) :: t) := by
  unfold utf8Assemble
  rw [asmGo.eq_5]
  rw [if_neg (by omega : ¬b1 < 128), if_neg (by omega : ¬b1 < 194), if_pos h2]
  rw [asmGo.eq_6]
  rw [if_pos (show (128 ≤ b2 && b2 < 192) = true by simp; omega)]
  rw [if_pos (show utf8Valid ((b1 - 192) * 64 + (b2 - 128)) 2 = true by
    simp [utf8Valid]; omega)]

/-- Reassembling a three-byte UTF-8 sequence outside the surrogate range. -/
theorem utf8Assemble_three (b1 b2 b3 : Nat) (toks : List (Char ⊕ Nat))
    (h1 : 224 ≤ b1) (h2 : b1 < 240) (h3 : 128 ≤ b2) (h4 : b2 < 192)
    (h5 : 128 ≤ b3) (h6 : b3 < 192)
    (h7 : 2048 ≤ (b1 - 224) * 4096 + (b2 - 128) * 64 + (b3 - 128))
    (h8 : (b1 - 224) * 4096 + (b2 - 128) * 64 + (b3 - 128) < 55296 ∨
        57344 ≤ (b1 - 224) * 4096 + (b2 - 128) * 64 + (b3 - 128)) :
    utf8Assemble (Sum.inr b1 :: Sum.inr b2 :: Sum.inr b3 :: toks) =
      (utf8Assemble toks).map
        (fun t => Char.ofNat ((b1 - 224) * 4096 + (b2 - 128) * 64 + (b3 - 128)) :: t) := by
  unfold utf8Assemble
  rw [asmGo.eq_5]
  rw [if_neg (by omega : ¬b1 < 128), if_neg (by omega : ¬b1 < 194),
    if_neg (by omega : ¬b1 < 224), if_pos h2]
  rw [asmGo.eq_7]
  rw [if_pos (show (128 ≤ b2 && b2 < 192) = true by simp; omega)]
  rw [asmGo.eq_6]
  rw [if_pos (show (128 ≤ b3 && b3 < 192) = true by simp; omega)]
  rw [if_pos (show utf8Valid (((b1 - 224) * 64 + (b2 - 128)) * 64 + (b3 - 128)) 3 = true by
    simp only [utf8Valid]
    norm_num
    rcases h8 with h | h <;> omega)]
  rw [show ((b1 - 224) * 64 + (b2 - 128)) * 64 + (b3 - 128) =
    (b1 - 224) * 4096 + (b2 - 128) * 64 + (b3 - 128) from by ring]

/-- Reassembling a four-byte UTF-8 sequence in Unicode range. -/
theorem utf8Assemble_four (b1 b2 b3 b4 : Nat) (toks : List (Char ⊕ Nat))
    (h1 : 240 ≤ b1) (h2 : b1 < 245) (h3 : 128 ≤ b2) (h4 : b2 < 192)
    (h5 : 128 ≤ b3) (h6 : b3 < 192) (h7 : 128 ≤ b4) (h8 : b4 < 192)
    (h9 : 65536 ≤ (b1 - 240) * 262144 + (b2 - 128) * 4096 + (b3 - 128) * 64 + (b4 - 128))
    (h10 : (b1 - 240) * 262144 + (b2 - 128) * 4096 + (b3 - 128) * 64 + (b4 - 128) < 1114112) :
    utf8Assemble (Sum.inr b1 :: Sum.inr b2 :: Sum.inr b3 :: Sum.inr b4 :: toks) =
      (utf8Assemble toks).map
        (fun t => Char.ofNat
          ((b1 - 240) * 262144 + (b2 - 128) * 4096 + (b3 - 128) * 64 + (b4 - 128)) :: t) := by
  unfold utf8Assemble
  rw [asmGo.eq_5]
  rw [if_neg (by omega : ¬b1 < 128), if_neg (by omega : ¬b1 < 194),
    if_neg (by omega : ¬b1 < 224), if_neg (by omega : ¬b1 < 240), if_pos h2]
  rw [asmGo.eq_7]
  rw [if_pos (show (128 ≤ b2 && b2 < 192) = true by simp; omega)]
  rw [asmGo.eq_7]
  rw [if_pos (show (128 ≤ b3 && b3 < 192) = true by simp; omega)]
  rw [asmGo.eq_6]
  rw [if_pos (show (128 ≤ b4 && b4 < 192) = true by simp; omega)]
  rw [if_pos (show utf8Valid ((((b1 - 240) * 64 + (b2 - 128)) * 64 + (b3 - 128)) * 64 +
      (b4 - 128)) 4 = true by
    simp only [utf8Valid]
    norm_num
    omega)]
  rw [show (((b1 - 240) * 64 + (b2 - 128)) * 64 + (b3 - 128)) * 64 + (b4 - 128) =
    (b1 - 240) * 262144 + (b2 - 128) * 4096 + (b3 - 128) * 64 + (b4 - 128) from by ring]

/-- Reassembling the UTF-8 byte escapes of one character. -/
theorem utf8Assemble_bytes (c : Char) (toks : List (Char ⊕ Nat)) :
    utf8Assemble ((utf8Bytes c.toNat).map Sum.inr ++ toks) =
      (utf8Assemble toks).map (fun t => c :: t) := by
  have hv := char_toNat_valid c
  have hlt : c.toNat < 1114112 := by rcases hv with h | ⟨_, h⟩ <;> omega
  by_cases h1 : c.toNat < 128
  · rw [show utf8Bytes c.toNat = [c.toNat] from by unfold utf8Bytes; rw [if_pos h1]]
    simp only [List.map_cons, List.map_nil, List.cons_append, List.nil_append]
    rw [utf8Assemble_one _ _ h1, Char.ofNat_toNat]
  · by_cases h2 : c.toNat < 2048
    · rw [show utf8Bytes c.toNat = [192 + c.toNat / 64, 128 + c.toNat % 64] from by
        unfold utf8Bytes; rw [if_neg h1, if_pos h2]]
      simp only [List.map_cons, List.map_nil, List.cons_append, List.nil_append]
      rw [utf8Assemble_two _ _ _ (by omega) (by omega) (by omega) (by omega)]
      rw [show (192 + c.toNat / 64 - 192) * 64 + (128 + c.toNat % 64 - 128) = c.toNat from by
        omega]
      rw [Char.ofNat_toNat]
    · by_cases h3 : c.toNat < 65536
      · rw [show utf8Bytes c.toNat =
            [224 + c.toNat / 4096, 128 + (c.toNat / 64) % 64, 128 + c.toNat % 64] from by
          unfold utf8Bytes; rw [if_neg h1, if_neg h2, if_pos h3]]
        simp only [List.map_cons, List.map_nil, List.cons_append, List.nil_append]
        rw [utf8Assemble_three _ _ _ _ (by omega) (by omega) (by omega) (by omega)
          (by omega) (by omega) (by omega) (by rcases hv with h | h <;> omega)]
        rw [show (224 + c.toNat / 4096 - 224) * 4096 + (128 + (c.toNat / 64) % 64 - 128) * 64 +
            (128 + c.toNat % 64 - 128) = c.toNat from by omega]
        rw [Char.ofNat_toNat]
      · rw [show utf8Bytes c.toNat =
            [240 + c.toNat / 262144, 128 + (c.toNat / 4096) % 64, 128 + (c.toNat / 64) % 64,
              128 + c.toNat % 64] from by
          unfold utf8Bytes; rw [if_neg h1, if_neg h2, if_neg h3]]
        simp only [List.map_cons, List.map_nil, List.cons_append, List.nil_append]
        rw [utf8Assemble_four _ _ _ _ _ (by omega) (by omega) (by omega) (by omega)
          (by omega) (by omega) (by omega) (by omega) (by omega) (by omega)]
        rw [show (240 + c.toNat / 262144 - 240) * 262144 + (128 + (c.toNat / 4096) % 64 - 128) * 4096 +
            (128 + (c.toNat / 64) % 64 - 128) * 64 + (128 + c.toNat % 64 - 128) = c.toNat from by
          omega]
        rw [Char.ofNat_toNat]

/-- Decoding is a left inverse of encoding over character lists. -/
theorem decodeChars_encodeChars (l : List Char) : decodeChars (encodeChars l) = some l := by
  induction l with
  | nil => rfl
  | cons c t ih =>
    have hv := char_toNat_valid c
    have hlt : c.toNat < 1114112 := by rcases hv with h | ⟨_, h⟩ <;> omega
    unfold decodeChars at ih ⊢
    rw [show encodeChars (c :: t) = encChar c ++ encodeChars t from rfl]
    by_cases hu : isUnreserved c = true
    · have hcne : ¬c = '%' := by
        intro he
        rw [he] at hu
        exact absurd hu (by decide)
      rw [show encChar c = [c] from by unfold encChar; rw [if_pos hu]]
      rw [List.singleton_append, percentTokens_cons_of_ne c hcne]
      cases hpt : percentTokens (encodeChars t) with
      | none => rw [hpt] at ih; simp at ih
      | some toks =>
        rw [hpt] at ih
        simp only [Option.map_some', Option.some_bind] at ih ⊢
        rw [show utf8Assemble (Sum.inl c :: toks) =
            (utf8Assemble toks).map (fun x => c :: x) from by
          unfold utf8Assemble; rw [asmGo.eq_3]]
        rw [ih]
        rfl
    · rw [show encChar c = bytesToPercent (utf8Bytes c.toNat) from by
        unfold encChar; rw [if_neg hu]]
      rw [percentTokens_bytesToPercent _ (utf8Bytes_lt _ hlt) _]
      cases hpt : percentTokens (encodeChars t) with
      | none => rw [hpt] at ih; simp at ih
      | some toks =>
        rw [hpt] at ih
        simp only [Option.map_some', Option.some_bind] at ih ⊢
        rw [utf8Assemble_bytes c toks, ih]
        rfl

/-- Decoding is a left inverse of encoding on strings. -/
theorem decode_encode_string (s : String) :
    decodeURIComponent (encodeURIComponent s) = some s := by
  unfold decodeURIComponent encodeURIComponent
  rw [show (String.mk (encodeChars s.data)).data = encodeChars s.data from rfl]
  rw [decodeChars_encodeChars]
  rfl


/-! ### Lemmas about dates, separators and the encoded character set -/

/-- Digit characters read back to their value. -/
theorem digitVal_digitCh_fin : ∀ n : Fin 10, digitVal (digitCh n.val) = some n.val := by
  decide

/-- Parsing the little-endian digits of a natural number. -/
theorem parseRevNat_natToRevFuel (fuel n : Nat) (h : n < fuel) :
    parseRevNat (natToRevFuel fuel n) = some n := by
  induction fuel generalizing n with
  | zero => omega
  | succ f ih =>
    rw [natToRevFuel]
    by_cases h10 : n < 10
    · rw [if_pos h10]
      rw [parseRevNat, digitVal_digitCh_fin ⟨n, h10⟩]
      simp [parseRevNat]
    · rw [if_neg h10]
      rw [parseRevNat, digitVal_digitCh_fin ⟨n % 10, by omega⟩, ih (n / 10) (by omega)]
      simp
      omega

/-- The digit list of a natural number is never empty. -/
theorem natToRevFuel_ne_nil (fuel n : Nat) (h : 0 < fuel) : natToRevFuel fuel n ≠ [] := by
  cases fuel with
  | zero => omega
  | succ f =>
    rw [natToRevFuel]
    split_ifs <;> simp

/-- Every character of a digit list is a digit character. -/
theorem natToRevFuel_mem (fuel n : Nat) :
    ∀ c ∈ natToRevFuel fuel n, ∃ m, m < 10 ∧ c = digitCh m := by
  induction fuel generalizing n with
  | zero =>
    intro c hc
    rw [show natToRevFuel 0 n = [] from rfl] at hc
    exact absurd hc (List.not_mem_nil c)
  | succ f ih =>
    intro c hc
    rw [natToRevFuel] at hc
    by_cases h10 : n < 10
    · rw [if_pos h10] at hc
      rcases List.mem_cons.mp hc with rfl | hmem
      · exact ⟨n, h10, rfl⟩
      · exact absurd hmem (List.not_mem_nil c)
    · rw [if_neg h10] at hc
      rcases List.mem_cons.mp hc with rfl | hmem
      · exact ⟨n % 10, by omega, rfl⟩
      · exact ih (n / 10) c hmem

/-- Digit characters are not the minus sign. -/
theorem digitCh_ne_dash : ∀ m : Fin 10, digitCh m.val ≠ '-' := by
  decide

/-- Digit characters are not the separator character. -/
theorem digitCh_ne_semi : ∀ m : Fin 10, digitCh m.val ≠ ';' := by
  decide

/-- The rendered date contains no separator character. -/
theorem dateChars_no_semi (d : Int) : ∀ c ∈ dateChars d, c ≠ ';' := by
  intro c hc
  have hdig : ∀ x ∈ natToChars d.natAbs, x ≠ ';' := by
    intro x hx
    rw [natToChars, List.mem_reverse] at hx
    obtain ⟨m, hm, rfl⟩ := natToRevFuel_mem _ _ x hx
    exact digitCh_ne_semi ⟨m, hm⟩
  unfold dateChars at hc
  split_ifs at hc
  · rcases List.mem_cons.mp hc with rfl | hmem
    · decide
    · exact hdig c hmem
  · exact hdig c hc

/-- The environment reads back the rendered date. -/
theorem parseDateChars_dateChars (d : Int) : parseDateChars (dateChars d) = some d := by
  unfold dateChars parseDateChars
  by_cases hd : d < 0
  · rw [if_pos hd]
    rw [if_pos (show (('-' :: natToChars d.natAbs).headD ' ') = '-' from rfl)]
    simp only [List.drop_succ_cons, List.drop_zero, natToChars, List.reverse_reverse]
    rw [parseRevNat_natToRevFuel _ _ (by omega)]
    show some (-(d.natAbs : Int)) = some d
    exact congrArg some (by omega)
  · rw [if_neg hd]
    have hne : natToRevFuel (d.natAbs + 1) d.natAbs ≠ [] := natToRevFuel_ne_nil _ _ (by omega)
    have hhead : ¬(natToChars d.natAbs).headD ' ' = '-' := by
      rw [natToChars]
      cases hrev : (natToRevFuel (d.natAbs + 1) d.natAbs).reverse with
      | nil => exact absurd (List.reverse_eq_nil_iff.mp hrev) hne
      | cons x xs =>
        have hx : x ∈ natToRevFuel (d.natAbs + 1) d.natAbs := by
          rw [← List.mem_reverse, hrev]
          exact List.mem_cons_self x xs
        obtain ⟨m, hm, rfl⟩ := natToRevFuel_mem _ _ x hx
        simpa using digitCh_ne_dash ⟨m, hm⟩
    rw [if_neg hhead]
    rw [natToChars, List.reverse_reverse, parseRevNat_natToRevFuel _ _ (by omega)]
    show some ((d.natAbs : Int)) = some d
    exact congrArg some (by omega)

/-- A run satisfying the predicate followed by a failing head is taken
whole. -/
theorem takeWhile_append_of (p : Char → Bool) (v rest : List Char)
    (hv : ∀ c ∈ v, p c = true) (hrest : ∀ c, rest.head? = some c → p c = false) :
    (v ++ rest).takeWhile p = v := by
  induction v with
  | nil =>
    cases rest with
    | nil => rfl
    | cons c r =>
      simp [List.takeWhile_cons, hrest c rfl]
  | cons c t ih =>
    simp [List.takeWhile_cons, hv c (List.mem_cons_self c t)]
    exact ih (fun x hx => hv x (List.mem_cons_of_mem c hx))

/-- A run satisfying the predicate followed by a failing head is dropped
whole. -/
theorem dropWhile_append_of (p : Char → Bool) (v rest : List Char)
    (hv : ∀ c ∈ v, p c = true) (hrest : ∀ c, rest.head? = some c → p c = false) :
    (v ++ rest).dropWhile p = rest := by
  induction v with
  | nil =>
    cases rest with
    | nil => rfl
    | cons c r =>
      simp [List.dropWhile_cons, hrest c rfl]
  | cons c t ih =>
    simp [List.dropWhile_cons, hv c (List.mem_cons_self c t)]
    exact ih (fun x hx => hv x (List.mem_cons_of_mem c hx))

/-- Two equals-free lists followed by an equals sign can only be prefixes
of one another when equal: the equals sign acts as an end marker. -/
theorem eqMark_prefix_eq (a b w : List Char) (ha : ∀ c ∈ a, c ≠ '=') (hb : ∀ c ∈ b, c ≠ '=')
    (h : (a ++ ['=']) <+: (b ++ '=' :: w)) : a = b := by
  induction a generalizing b with
  | nil =>
    cases b with
    | nil => rfl
    | cons x xs =>
      simp only [List.nil_append, List.cons_append, List.cons_prefix_cons] at h
      exact absurd h.1.symm (hb x (List.mem_cons_self x xs))
  | cons y ys ih =>
    cases b with
    | nil =>
      simp only [List.cons_append, List.nil_append, List.cons_prefix_cons] at h
      exact absurd h.1 (ha y (List.mem_cons_self y ys))
    | cons x xs =>
      simp only [List.cons_append, List.cons_prefix_cons] at h
      rcases h with ⟨rfl, h2⟩
      rw [ih xs (fun c hc => ha c (List.mem_cons_of_mem y hc))
        (fun c hc => hb c (List.mem_cons_of_mem y hc)) h2]

/-- Hexadecimal digit characters avoid the characters special to the
cookie serialization. -/
theorem hexDigit_safe (n : Nat) :
    hexDigit n ≠ ';' ∧ hexDigit n ≠ '=' ∧ hexDigit n ≠ ' ' := by
  unfold hexDigit
  by_cases h : n < 16
  · interval_cases n <;> exact ⟨by decide, by decide, by decide⟩
  · rw [List.getD_eq_default]
    · exact ⟨by decide, by decide, by decide⟩
    · simp [hexDigits]
      omega

/-- Percent-escaped bytes avoid the characters special to the cookie
serialization. -/
theorem mem_bytesToPercent_safe (bs : List Nat) (x : Char) (h : x ∈ bytesToPercent bs) :
    x ≠ ';' ∧ x ≠ '=' ∧ x ≠ ' ' := by
  induction bs with
  | nil => rw [bytesToPercent] at h; simp at h
  | cons b t ih =>
    rw [bytesToPercent] at h
    rcases List.mem_append.mp h with h | h
    · simp only [percentByte, List.mem_cons, List.not_mem_nil, or_false] at h
      rcases h with rfl | rfl | rfl
      · exact ⟨by decide, by decide, by decide⟩
      · exact hexDigit_safe _
      · exact hexDigit_safe _
    · exact ih h

/-- Every character of an encoded string avoids the characters special to
the cookie serialization. -/
theorem encodeChars_safe (l : List Char) :
    ∀ x ∈ encodeChars l, x ≠ ';' ∧ x ≠ '=' ∧ x ≠ ' ' := by
  induction l with
  | nil => intro x hx; rw [encodeChars] at hx; simp at hx
  | cons c t ih =>
    intro x hx
    rw [encodeChars] at hx
    rcases List.mem_append.mp hx with h | h
    · unfold encChar at h
      by_cases hu : isUnreserved c = true
      · rw [if_pos hu] at h
        simp at h
        subst h
        refine ⟨?_, ?_, ?_⟩ <;> intro he <;> rw [he] at hu <;> exact absurd hu (by decide)
      · rw [if_neg hu] at h
        exact mem_bytesToPercent_safe _ _ h
    · exact ih x h

/-- Hexadecimal digit characters are not regular-expression
metacharacters. -/
theorem hexDigit_not_meta (n : Nat) :
    hexDigit n ≠ '.' ∧ hexDigit n ≠ '*' ∧ hexDigit n ≠ '(' ∧ hexDigit n ≠ ')' := by
  unfold hexDigit
  by_cases h : n < 16
  · interval_cases n <;> exact ⟨by decide, by decide, by decide, by decide⟩
  · rw [List.getD_eq_default]
    · exact ⟨by decide, by decide, by decide, by decide⟩
    · simp [hexDigits]
      omega

/-- Percent-escaped bytes contain no regular-expression metacharacters. -/
theorem mem_bytesToPercent_not_meta (bs : List Nat) (x : Char) (h : x ∈ bytesToPercent bs) :
    x ≠ '.' ∧ x ≠ '*' ∧ x ≠ '(' ∧ x ≠ ')' := by
  induction bs with
  | nil => rw [bytesToPercent] at h; simp at h
  | cons b t ih =>
    rw [bytesToPercent] at h
    rcases List.mem_append.mp h with h | h
    · simp only [percentByte, List.mem_cons, List.not_mem_nil, or_false] at h
      rcases h with rfl | rfl | rfl
      · exact ⟨by decide, by decide, by decide, by decide⟩
      · exact hexDigit_not_meta _
      · exact hexDigit_not_meta _
    · exact ih h

/-- Encoding a string free of the surviving metacharacters yields a string
free of them: only the input itself can contribute them. -/
theorem encodeChars_not_meta (l : List Char)
    (hl : ∀ x ∈ l, x ≠ '.' ∧ x ≠ '*' ∧ x ≠ '(' ∧ x ≠ ')') :
    ∀ x ∈ encodeChars l, x ≠ '.' ∧ x ≠ '*' ∧ x ≠ '(' ∧ x ≠ ')' := by
  induction l with
  | nil => intro x hx; rw [encodeChars] at hx; simp at hx
  | cons c t ih =>
    intro x hx
    rw [encodeChars] at hx
    rcases List.mem_append.mp hx with h | h
    · unfold encChar at h
      by_cases hu : isUnreserved c = true
      · rw [if_pos hu] at h
        simp at h
        subst h
        exact hl _ (List.mem_cons_self _ _)
      · rw [if_neg hu] at h
        exact mem_bytesToPercent_not_meta _ _ h
    · exact ih (fun y hy => hl y (List.mem_cons_of_mem c hy)) x h

/-- The encoded form of a regex-safe key is treated literally by the
lookup regular expression. -/
theorem regexLiteral_encode (k : String) (hk : regexSafeKey k) :
    regexLiteral (encodeURIComponent k).data = true := by
  unfold regexLiteral
  rw [List.all_eq_true]
  intro c hc
  have h := encodeChars_not_meta k.data (fun x hx => hk x hx) c hc
  simp [h.1, h.2.1, h.2.2.1, h.2.2.2]

/-! ### Lemmas about the cookie string: splitting, joining and scanning -/

/-- A separator-free string is one whole segment. -/
theorem splitJar_no_semi (x : List Char) (hx : ∀ c ∈ x, c ≠ ';') : splitJar x = [x] := by
  induction x with
  | nil => rfl
  | cons c t ih =>
    cases t with
    | nil => rfl
    | cons c2 r =>
      rw [splitJar]
      rw [if_neg (fun hand => hx c (List.mem_cons_self c _) hand.1)]
      rw [ih (fun y hy => hx y (List.mem_cons_of_mem c hy))]

/-- Splitting a separator-free segment followed by the separator peels the
segment off. -/
theorem splitJar_append (x : List Char) (hx : ∀ c ∈ x, c ≠ ';') (r : List Char) :
    splitJar (x ++ ';' :: ' ' :: r) = x :: splitJar r := by
  induction x with
  | nil =>
    rw [List.nil_append, splitJar, if_pos ⟨rfl, rfl⟩]
  | cons c t ih =>
    rw [List.cons_append]
    cases ht : t ++ ';' :: ' ' :: r with
    | nil => exact absurd ht (List.append_ne_nil_of_right_ne_nil t (by simp))
    | cons d u =>
      rw [splitJar]
      rw [if_neg (fun hand => hx c (List.mem_cons_self c _) hand.1)]
      rw [← ht, ih (fun y hy => hx y (List.mem_cons_of_mem c hy))]

/-- Splitting after joining separator-free segments recovers them. -/
theorem splitJar_joinSegs (segs : List (List Char))
    (h : ∀ seg ∈ segs, ∀ c ∈ seg, c ≠ ';') (hne : segs ≠ []) :
    splitJar (joinSegs segs) = segs := by
  induction segs with
  | nil => exact absurd rfl hne
  | cons x rest ih =>
    cases rest with
    | nil =>
      rw [show joinSegs [x] = x from rfl]
      exact splitJar_no_semi x (h x (List.mem_cons_self x _))
    | cons y ys =>
      rw [show joinSegs (x :: y :: ys) = x ++ ';' :: ' ' :: joinSegs (y :: ys) from rfl]
      rw [splitJar_append x (h x (List.mem_cons_self x _)) _]
      rw [ih (fun seg hs => h seg (List.mem_cons_of_mem x hs)) (by simp)]

/-- The anchored lookup misses the empty string. -/
theorem matchAt_nil (k : List Char) : Cookie.matchAt [] k = none := by
  cases k <;> rfl

/-- The anchored lookup at the matching entry captures the stored value. -/
theorem matchAt_found (k v rest : List Char) (hv : ∀ c ∈ v, c ≠ ';')
    (hrest : ∀ c, rest.head? = some c → c = ';') :
    Cookie.matchAt (k ++ '=' :: (v ++ rest)) k = some v := by
  unfold Cookie.matchAt
  have hshape : k ++ '=' :: (v ++ rest) = (k ++ ['=']) ++ (v ++ rest) := by
    simp
  rw [hshape]
  rw [if_pos (by
    rw [ List.isPrefixOf_iff_prefix]
    exact List.prefix_append _ _)]
  rw [List.drop_left' (by simp)]
  rw [takeWhile_append_of _ v rest
    (fun c hc => by simpa using hv c hc)
    (fun c hc => by simpa using hrest c hc)]

/-- The anchored lookup misses an entry with a different name. -/
theorem matchAt_ne (n w k : List Char) (hn : ∀ c ∈ n, c ≠ '=') (hk : ∀ c ∈ k, c ≠ '=')
    (hne : n ≠ k) : Cookie.matchAt (n ++ '=' :: w) k = none := by
  unfold Cookie.matchAt
  rw [if_neg]
  intro hpre
  rw [ List.isPrefixOf_iff_prefix] at hpre
  exact hne (eqMark_prefix_eq k n w hk hn hpre).symm

/-- The position scan finds nothing in a separator-free string. -/
theorem cookieScanAux_no_semi (k l : List Char) (hl : ∀ c ∈ l, c ≠ ';') :
    Cookie.cookieScanAux k l = none := by
  induction l with
  | nil => rfl
  | cons c t ih =>
    cases t with
    | nil => rfl
    | cons c2 r =>
      rw [Cookie.cookieScanAux]
      rw [if_neg (fun hand => hl c (List.mem_cons_self c _) hand.1)]
      exact ih (fun y hy => hl y (List.mem_cons_of_mem c hy))

/-- One leading space does not affect the position scan. -/
theorem cookieScanAux_space (k r : List Char) :
    Cookie.cookieScanAux k (' ' :: r) = Cookie.cookieScanAux k r := by
  cases r with
  | nil => rfl
  | cons c2 t =>
    rw [Cookie.cookieScanAux]
    rw [if_neg (fun hand => by exact absurd hand.1 (by decide))]

/-- The position scan skips a separator-free segment and resumes at the
separator. -/
theorem cookieScanAux_append (k x r : List Char) (hx : ∀ c ∈ x, c ≠ ';') :
    Cookie.cookieScanAux k (x ++ ';' :: ' ' :: r) =
      (Cookie.matchAt r k).orElse (fun _ => Cookie.cookieScanAux k r) := by
  induction x with
  | nil =>
    rw [List.nil_append, Cookie.cookieScanAux, if_pos ⟨rfl, rfl⟩, cookieScanAux_space]
  | cons c t ih =>
    rw [List.cons_append]
    cases ht : t ++ ';' :: ' ' :: r with
    | nil => exact absurd ht (List.append_ne_nil_of_right_ne_nil t (by simp))
    | cons d u =>
      rw [Cookie.cookieScanAux]
      rw [if_neg (fun hand => hx c (List.mem_cons_self c _) hand.1)]
      rw [← ht, ih (fun y hy => hx y (List.mem_cons_of_mem c hy))]

/-- Scanning the rendered jar for an encoded key finds exactly the first
entry with that name, as an association lookup. -/
theorem cookieScan_renderJar (jar : List (String × String)) (k : String)
    (hgood : wfJar jar) (hk : ∀ c ∈ k.data, c ≠ ';' ∧ c ≠ '=') :
    Cookie.cookieScan k.data (renderJar jar) =
      (jar.find? (fun e => e.1 == k)).map (fun e => e.2.data) := by
  induction jar with
  | nil =>
    rw [show renderJar [] = [] from rfl]
    unfold Cookie.cookieScan
    rw [matchAt_nil]
    rfl
  | cons e rest ih =>
    obtain ⟨n, w⟩ := e
    have hgn : goodName n := (hgood (n, w) (List.mem_cons_self _ _)).1
    have hgw : goodValue w := (hgood (n, w) (List.mem_cons_self _ _)).2
    have hrest_good : wfJar rest := fun e2 he2 => hgood e2 (List.mem_cons_of_mem _ he2)
    have hkv_no_semi : ∀ c ∈ n.data ++ '=' :: w.data, c ≠ ';' := by
      intro c hc
      rcases List.mem_append.mp hc with h | h
      · exact (hgn c h).1
      · rcases List.mem_cons.mp h with rfl | h2
        · decide
        · exact hgw c h2
    by_cases hnk : n = k
    · subst hnk
      rw [List.find?_cons_of_pos _ (by simp)]
      cases rest with
      | nil =>
        rw [show renderJar [(n, w)] = n.data ++ '=' :: w.data from rfl]
        unfold Cookie.cookieScan
        have hm : Cookie.matchAt (n.data ++ '=' :: w.data) n.data = some w.data := by
          rw [show n.data ++ '=' :: w.data = n.data ++ '=' :: (w.data ++ []) from by simp]
          exact matchAt_found n.data w.data [] (fun c hc => hgw c hc)
            (fun c hc => by simp at hc)
        rw [hm]
        rfl
      | cons e2 rest2 =>
        rw [show renderJar ((n, w) :: e2 :: rest2) =
            (n.data ++ '=' :: w.data) ++ ';' :: ' ' :: renderJar (e2 :: rest2) from rfl]
        unfold Cookie.cookieScan
        have hm : Cookie.matchAt
            ((n.data ++ '=' :: w.data) ++ ';' :: ' ' :: renderJar (e2 :: rest2)) n.data =
            some w.data := by
          rw [show (n.data ++ '=' :: w.data) ++ ';' :: ' ' :: renderJar (e2 :: rest2) =
              n.data ++ '=' :: (w.data ++ ';' :: ' ' :: renderJar (e2 :: rest2)) from by simp]
          exact matchAt_found n.data w.data _ (fun c hc => hgw c hc)
            (fun c hc => by simp at hc; exact hc.symm)
        rw [hm]
        rfl
    · rw [List.find?_cons_of_neg _ (by simp [hnk])]
      have hndk : n.data ≠ k.data := by
        intro hd
        apply hnk
        cases n with
        | mk nd =>
          cases k with
          | mk kd => exact congrArg String.mk hd
      cases rest with
      | nil =>
        rw [show renderJar [(n, w)] = n.data ++ '=' :: w.data from rfl]
        unfold Cookie.cookieScan
        rw [matchAt_ne n.data w.data k.data (fun c hc => (hgn c hc).2)
          (fun c hc => (hk c hc).2) hndk]
        rw [cookieScanAux_no_semi k.data _ hkv_no_semi]
        rfl
      | cons e2 rest2 =>
        rw [show renderJar ((n, w) :: e2 :: rest2) =
            (n.data ++ '=' :: w.data) ++ ';' :: ' ' :: renderJar (e2 :: rest2) from rfl]
        unfold Cookie.cookieScan
        have hm : Cookie.matchAt
            ((n.data ++ '=' :: w.data) ++ ';' :: ' ' :: renderJar (e2 :: rest2)) k.data =
            none := by
          rw [show (n.data ++ '=' :: w.data) ++ ';' :: ' ' :: renderJar (e2 :: rest2) =
              n.data ++ '=' :: (w.data ++ ';' :: ' ' :: renderJar (e2 :: rest2)) from by simp]
          exact matchAt_ne n.data _ k.data (fun c hc => (hgn c hc).2)
            (fun c hc => (hk c hc).2) hndk
        rw [hm]
        show Cookie.cookieScanAux k.data
          ((n.data ++ '=' :: w.data) ++ ';' :: ' ' :: renderJar (e2 :: rest2)) = _
        rw [cookieScanAux_append k.data _ _ hkv_no_semi]
        show Cookie.cookieScan k.data (renderJar (e2 :: rest2)) = _
        exact ih hrest_good

/-- The rendered jar of at least one entry is never the empty string. -/
theorem renderJar_cons_ne (e : String × String) (rest : List (String × String)) :
    (renderJar (e :: rest)).isEmpty = false := by
  cases rest with
  | nil =>
    rw [show renderJar [e] = e.1.data ++ '=' :: e.2.data from rfl]
    simp
  | cons e2 rest2 =>
    rw [show renderJar (e :: e2 :: rest2) =
        (e.1.data ++ '=' :: e.2.data) ++ ';' :: ' ' :: renderJar (e2 :: rest2) from rfl]
    simp

/-- Full characterization of get over a well-formed jar: the association
lookup of the encoded key decides the result, with the raw flag choosing
between the stored and the decoded value, and a decoding failure turning
into the modelled URIError. -/
theorem get_eq_find (st : CookieState) (k : String) (o : GetOptions) (hwf : wfJar st.jar)
    (hk : regexSafeKey k) :
    Cookie.get st k o =
      (match st.jar.find? (fun e => e.1 == encodeURIComponent k) with
      | none => Except.ok o.defaultValue
      | some e =>
        if o.raw then Except.ok (some e.2)
        else
          match decodeURIComponent e.2 with
          | some w => Except.ok (some w)
          | none => Except.error JsError.invalidEncoding) := by
  obtain ⟨defaults, now, jar⟩ := st
  have hkk : ∀ c ∈ (encodeURIComponent k).data, c ≠ ';' ∧ c ≠ '=' := by
    intro c hc
    have h := encodeChars_safe k.data c hc
    exact ⟨h.1, h.2.1⟩
  cases jar with
  | nil => rfl
  | cons e rest =>
    unfold Cookie.get
    dsimp only
    rw [renderJar_cons_ne e rest]
    rw [if_neg (by simp)]
    rw [if_pos (regexLiteral_encode k hk)]
    rw [cookieScan_renderJar (e :: rest) (encodeURIComponent k) hwf hkk]
    cases hf : (e :: rest).find? (fun e2 => e2.1 == encodeURIComponent k) with
    | none => rfl
    | some e2 => rfl

/-- Replacing the value of the matching entries puts the new value at the
key in the association lookup. -/
theorem find?_map_replace (jar : List (String × String)) (k v : String)
    (hany : jar.any (fun e => e.1 == k) = true) :
    (jar.map (fun e => if e.1 == k then (e.1, v) else e)).find? (fun e => e.1 == k) =
      some (k, v) := by
  induction jar with
  | nil => simp at hany
  | cons e rest ih =>
    by_cases he : (e.1 == k) = true
    · rw [List.map_cons, if_pos he]
      rw [List.find?_cons_of_pos _ (by simpa using he)]
      have hek : e.1 = k := by simpa using he
      rw [hek]
    · rw [List.map_cons, if_neg he]
      rw [List.find?_cons_of_neg _ (by simpa using he)]
      apply ih
      rw [List.any_cons] at hany
      rcases Bool.or_eq_true_iff.mp hany with h | h
      · exact absurd h he
      · exact h

/-- Appending a fresh entry puts its value at the key in the association
lookup. -/
theorem find?_append_absent (jar : List (String × String)) (k v : String)
    (hnone : ∀ e ∈ jar, (e.1 == k) = false) :
    (jar ++ [(k, v)]).find? (fun e => e.1 == k) = some (k, v) := by
  induction jar with
  | nil =>
    rw [List.nil_append]
    rw [List.find?_cons_of_pos _ (by simp)]
  | cons e rest ih =>
    rw [List.cons_append]
    rw [List.find?_cons_of_neg _ (by simp [hnone e (List.mem_cons_self e rest)])]
    exact ih (fun x hx => hnone x (List.mem_cons_of_mem _ hx))

/-- Replacement by a well-formed value preserves well-formedness. -/
theorem wfJar_replace (jar : List (String × String)) (k v : String) (hwf : wfJar jar)
    (hv : goodValue v) :
    wfJar (jar.map (fun e => if e.1 == k then (e.1, v) else e)) := by
  intro e2 he2
  rw [List.mem_map] at he2
  obtain ⟨e, he, rfl⟩ := he2
  by_cases hek : (e.1 == k) = true
  · rw [if_pos hek]
    exact ⟨(hwf e he).1, hv⟩
  · rw [if_neg hek]
    exact hwf e he

/-- Appending a well-formed entry preserves well-formedness. -/
theorem wfJar_append (jar : List (String × String)) (k v : String) (hwf : wfJar jar)
    (hk : goodName k) (hv : goodValue v) : wfJar (jar ++ [(k, v)]) := by
  intro e he
  rcases List.mem_append.mp he with h | h
  · exact hwf e h
  · rcases List.mem_singleton.mp h with rfl
    exact ⟨hk, hv⟩

/-- Filtering preserves well-formedness. -/
theorem wfJar_filter (jar : List (String × String)) (p : String × String → Bool)
    (hwf : wfJar jar) : wfJar (jar.filter p) :=
  fun e he => hwf e (List.mem_of_mem_filter he)

/-- Writing a well-shaped cookie string with no past expires attribute
updates the named entry in place or appends it. -/
theorem applyCookieWrite_pair (now : Int) (jar : List (String × String)) (nk nv : List Char)
    (attrs : List (List Char))
    (hnk : ∀ c ∈ nk, c ≠ ';' ∧ c ≠ '=') (hnv : ∀ c ∈ nv, c ≠ ';')
    (hattrs : ∀ seg ∈ attrs, ∀ c ∈ seg, c ≠ ';')
    (hnoexp : attrs.any (fun seg => ("expires=".data).isPrefixOf seg &&
      (match parseDateChars (seg.drop 8) with
       | some d => decide (d < now)
       | none => false)) = false) :
    applyCookieWrite now jar (joinSegs ((nk ++ '=' :: nv) :: attrs)) =
      (if jar.any (fun e => e.1 == String.mk nk) = true then
        jar.map (fun e => if e.1 == String.mk nk then (e.1, String.mk nv) else e)
      else jar ++ [(String.mk nk, String.mk nv)]) := by
  have hkv : ∀ c ∈ nk ++ '=' :: nv, c ≠ ';' := by
    intro c hc
    rcases List.mem_append.mp hc with h | h
    · exact (hnk c h).1
    · rcases List.mem_cons.mp h with rfl | h2
      · decide
      · exact hnv c h2
  have hsplit : splitJar (joinSegs ((nk ++ '=' :: nv) :: attrs)) =
      (nk ++ '=' :: nv) :: attrs := by
    apply splitJar_joinSegs
    · intro seg hs
      rcases List.mem_cons.mp hs with rfl | h
      · exact hkv
      · exact hattrs seg h
    · simp
  have hname : cookieNameOf (nk ++ '=' :: nv) = nk := by
    unfold cookieNameOf
    apply takeWhile_append_of _ nk ('=' :: nv)
    · intro c hc
      simpa using (hnk c hc).2
    · intro c hc
      simp at hc
      simp [← hc]
  have hvalue : cookieValueOf (nk ++ '=' :: nv) = nv := by
    unfold cookieValueOf
    rw [dropWhile_append_of _ nk ('=' :: nv)
      (fun c hc => by simpa using (hnk c hc).2)
      (fun c hc => by simp at hc; simp [← hc])]
    simp
  unfold applyCookieWrite
  dsimp only
  rw [hsplit]
  rw [show ((nk ++ '=' :: nv) :: attrs).headD [] = nk ++ '=' :: nv from rfl]
  rw [show ((nk ++ '=' :: nv) :: attrs).drop 1 = attrs from rfl]
  rw [hname, hvalue, hnoexp]
  rw [if_neg (by simp)]

/-- Writing a well-shaped cookie string with a past expires attribute
deletes the named entry. -/
theorem applyCookieWrite_delete (now : Int) (jar : List (String × String)) (nk nv : List Char)
    (attrs : List (List Char))
    (hnk : ∀ c ∈ nk, c ≠ ';' ∧ c ≠ '=') (hnv : ∀ c ∈ nv, c ≠ ';')
    (hattrs : ∀ seg ∈ attrs, ∀ c ∈ seg, c ≠ ';')
    (hexp : attrs.any (fun seg => ("expires=".data).isPrefixOf seg &&
      (match parseDateChars (seg.drop 8) with
       | some d => decide (d < now)
       | none => false)) = true) :
    applyCookieWrite now jar (joinSegs ((nk ++ '=' :: nv) :: attrs)) =
      jar.filter (fun e => e.1 != String.mk nk) := by
  have hkv : ∀ c ∈ nk ++ '=' :: nv, c ≠ ';' := by
    intro c hc
    rcases List.mem_append.mp hc with h | h
    · exact (hnk c h).1
    · rcases List.mem_cons.mp h with rfl | h2
      · decide
      · exact hnv c h2
  have hsplit : splitJar (joinSegs ((nk ++ '=' :: nv) :: attrs)) =
      (nk ++ '=' :: nv) :: attrs := by
    apply splitJar_joinSegs
    · intro seg hs
      rcases List.mem_cons.mp hs with rfl | h
      · exact hkv
      · exact hattrs seg h
    · simp
  have hname : cookieNameOf (nk ++ '=' :: nv) = nk := by
    unfold cookieNameOf
    apply takeWhile_append_of _ nk ('=' :: nv)
    · intro c hc
      simpa using (hnk c hc).2
    · intro c hc
      simp at hc
      simp [← hc]
  unfold applyCookieWrite
  dsimp only
  rw [hsplit]
  rw [show ((nk ++ '=' :: nv) :: attrs).headD [] = nk ++ '=' :: nv from rfl]
  rw [show ((nk ++ '=' :: nv) :: attrs).drop 1 = attrs from rfl]
  rw [hname, hexp]
  rw [if_pos rfl]

/-- C4 counterexample: get splices the percent-encoded key into its lookup
regular expression, and the star in this key survives encoding and
quantifies the preceding letter there, so get misses the entry set under
that very key and yields the default instead of the stored value. -/
theorem c4_counterexample :
    Cookie.get (Cookie.set ⟨{}, 0, []⟩ ("a*") (some ("x")) {}) ("a*") {} =
        Except.ok none ∧
      ¬ Cookie.get (Cookie.set ⟨{}, 0, []⟩ ("a*") (some ("x")) {}) ("a*") {} =
        Except.ok (some ("x")) := by
  refine ⟨by rfl, ?_⟩
  intro h
  rw [show Cookie.get (Cookie.set ⟨{}, 0, []⟩ ("a*") (some ("x")) {}) ("a*") {} =
      Except.ok none from rfl] at h
  simp at h

/-- C4 amended: for a key whose percent-encoding contains none of the
regular-expression metacharacters that survive encoding (dot, star and the
parentheses), set(k, v) with default non-raw options and no prior expiry
followed by get(k) returns v: the percent-encoded value round-trips
through the ambient cookie string and the decoding performed by get.  For
other keys the splice of the encoded key into the lookup pattern breaks
the round trip. -/
theorem c4_set_get_roundtrip (st : CookieState) (k v : String)
    (hwf : wfJar st.jar)
    (hdays : st.options.days = none) (hexp : st.options.expires = none)
    (hpath : st.options.path = none) (hdom : st.options.domain = none)
    (hraw : ¬st.options.raw = some true) (hk : regexSafeKey k) :
    Cookie.get (Cookie.set st k (some v) {}) k {} = Except.ok (some v) := by
  have hopts : effectiveOptions st.now (mergeOptions st.options {}) (some v) = st.options := by
    show effectiveOptions st.now st.options (some v) = st.options
    simp [effectiveOptions, hdays]
  have hsegs : cookieSegments (encodeURIComponent k) (encodeURIComponent v) st.options =
      ((encodeURIComponent k).data ++ '=' :: (encodeURIComponent v).data) ::
        (if st.options.secure = some true then [(("secure" : String).data)] else []) := by
    unfold cookieSegments
    rw [hexp, hpath, hdom]
    simp
  have hwr : Cookie.writtenCookie st k (some v) {} =
      joinSegs (((encodeURIComponent k).data ++ '=' :: (encodeURIComponent v).data) ::
        (if st.options.secure = some true then [(("secure" : String).data)] else [])) := by
    unfold Cookie.writtenCookie
    dsimp only
    rw [hopts]
    rw [if_neg hraw]
    rw [hsegs]
  have hnk' : ∀ c ∈ (encodeURIComponent k).data, c ≠ ';' ∧ c ≠ '=' := fun c hc =>
    ⟨(encodeChars_safe k.data c hc).1, (encodeChars_safe k.data c hc).2.1⟩
  have hnv' : ∀ c ∈ (encodeURIComponent v).data, c ≠ ';' := fun c hc =>
    (encodeChars_safe v.data c hc).1
  have hattrs : ∀ seg ∈ (if st.options.secure = some true then
      [(("secure" : String).data)] else ([] : List (List Char))), ∀ c ∈ seg, c ≠ ';' := by
    by_cases hs : st.options.secure = some true <;> simp [hs]
  have hexpfalse : (if st.options.secure = some true then
      [(("secure" : String).data)] else ([] : List (List Char))).any
      (fun seg => ("expires=".data).isPrefixOf seg &&
        (match parseDateChars (seg.drop 8) with
         | some d => decide (d < st.now)
         | none => false)) = false := by
    by_cases hs : st.options.secure = some true <;> simp [hs]
  have hjar : (Cookie.set st k (some v) {}).jar =
      (if st.jar.any (fun e => e.1 == encodeURIComponent k) = true then
        st.jar.map (fun e =>
          if e.1 == encodeURIComponent k then (e.1, encodeURIComponent v) else e)
      else st.jar ++ [(encodeURIComponent k, encodeURIComponent v)]) := by
    show applyCookieWrite st.now st.jar (Cookie.writtenCookie st k (some v) {}) = _
    rw [hwr]
    rw [applyCookieWrite_pair st.now st.jar _ _ _ hnk' hnv' hattrs hexpfalse]
  have hwf' : wfJar (Cookie.set st k (some v) {}).jar := by
    rw [hjar]
    by_cases hany : st.jar.any (fun e => e.1 == encodeURIComponent k) = true
    · rw [if_pos hany]
      exact wfJar_replace st.jar _ _ hwf hnv'
    · rw [if_neg hany]
      exact wfJar_append st.jar _ _ hwf hnk' hnv'
  rw [get_eq_find (Cookie.set st k (some v) {}) k {} hwf' hk]
  rw [hjar]
  by_cases hany : st.jar.any (fun e => e.1 == encodeURIComponent k) = true
  · rw [if_pos hany]
    rw [find?_map_replace st.jar _ _ hany]
    dsimp only
    rw [show decodeURIComponent (encodeURIComponent v) = some v from decode_encode_string v]
    rfl
  · rw [if_neg hany]
    rw [find?_append_absent st.jar _ _ (fun e he => by
      rcases Bool.eq_false_or_eq_true (e.1 == encodeURIComponent k) with h | h
      · exact absurd (List.any_of_mem he h) hany
      · exact h)]
    dsimp only
    rw [show decodeURIComponent (encodeURIComponent v) = some v from decode_encode_string v]
    rfl

/-- Witness for C4 at a concrete state, key and value. -/
theorem c4_witness :
    Cookie.get (Cookie.set ⟨{}, 0, []⟩ ("foo") (some ("bar")) {}) ("foo") {} =
      Except.ok (some ("bar")) :=
  c4_set_get_roundtrip ⟨{}, 0, []⟩ ("foo") ("bar") (by intro e he; simp at he)
    rfl rfl rfl rfl (by simp) (by unfold regexSafeKey; decide)

/-- A lookup never finds an entry in a jar filtered to exclude its key. -/
theorem find?_filter_ne (jar : List (String × String)) (key : String) :
    (jar.filter (fun e => e.1 != key)).find? (fun e => e.1 == key) = none := by
  rw [List.find?_eq_none]
  intro e he
  have h := List.mem_filter.mp he
  simpa using h.2

/-- Unsetting a key under default options deletes every entry with the
encoded key from the jar. -/
theorem unset_jar_clean (st : CookieState) (k : String) (hopt : st.options = {}) :
    (Cookie.unset st k {}).jar =
      st.jar.filter (fun e => e.1 != encodeURIComponent k) := by
  show applyCookieWrite st.now st.jar (Cookie.writtenCookie st k none {}) = _
  have hopts : effectiveOptions st.now (mergeOptions st.options {}) none =
      { expires := some (st.now + (-1)), days := some (-1) } := by
    rw [hopt]
    rfl
  have hwr : Cookie.writtenCookie st k none {} =
      joinSegs (((encodeURIComponent k).data ++ '=' :: ("null" : String).data) ::
        [("expires=".data) ++ dateChars (st.now + (-1))]) := by
    unfold Cookie.writtenCookie
    dsimp only
    rw [hopts]
    rfl
  have hnk' : ∀ c ∈ (encodeURIComponent k).data, c ≠ ';' ∧ c ≠ '=' := fun c hc =>
    ⟨(encodeChars_safe k.data c hc).1, (encodeChars_safe k.data c hc).2.1⟩
  have hattrs : ∀ seg ∈ [("expires=".data) ++ dateChars (st.now + (-1))],
      ∀ c ∈ seg, c ≠ ';' := by
    intro seg hs
    rcases List.mem_singleton.mp hs with rfl
    intro c hc
    rcases List.mem_append.mp hc with h | h
    · exact (by decide : ∀ x ∈ ("expires=".data), x ≠ ';') c h
    · exact dateChars_no_semi _ c h
  have hexpany : ([("expires=".data) ++ dateChars (st.now + (-1))]).any
      (fun seg => ("expires=".data).isPrefixOf seg &&
        (match parseDateChars (seg.drop 8) with
         | some d => decide (d < st.now)
         | none => false)) = true := by
    rw [List.any_cons]
    apply Bool.or_eq_true_iff.mpr
    left
    rw [Bool.and_eq_true]
    constructor
    · rw [ List.isPrefixOf_iff_prefix]
      exact List.prefix_append _ _
    · rw [List.drop_left' (by decide : ("expires=".data).length = 8)]
      rw [parseDateChars_dateChars]
      exact decide_eq_true (by omega)
  rw [hwr]
  rw [applyCookieWrite_delete st.now st.jar _ _ _ hnk' (by decide) hattrs hexpany]

/-- C5 counterexample: a value stored raw that is not a valid
percent-encoding makes the subsequent get throw the modelled URIError, so
not every call returns normally. -/
theorem c5_counterexample :
    Cookie.get (Cookie.set ⟨{}, 0, []⟩ ("x") (some ("100%")) { raw := some true })
      ("x") {} = Except.error JsError.invalidEncoding := by
  rfl

/-- C5 amended: every operation of the embedding other than get is total by
construction, and get applied to a key whose percent-encoding is free of
the regular-expression metacharacters returns normally (never the modelled
SyntaxError or URIError) whenever the lookup is raw or the jar is
well-formed with every stored value a valid percent-encoding.  For other
keys even a raw lookup on a non-empty store can throw the SyntaxError of
the pattern construction, which precedes the raw test. -/
theorem c5_amended_no_throw :
    ∀ (st : CookieState) (k : String) (o : GetOptions), regexSafeKey k →
      o.raw = true ∨ (wfJar st.jar ∧ ∀ e ∈ st.jar, (decodeURIComponent e.2).isSome = true) →
      ∃ r, Cookie.get st k o = Except.ok r := by
  intro st k o hk h
  rcases h with hraw | ⟨hwf, hdec⟩
  · unfold Cookie.get
    dsimp only
    by_cases he : (renderJar st.jar).isEmpty = true
    · rw [if_pos he]
      exact ⟨o.defaultValue, rfl⟩
    · rw [if_neg he]
      rw [if_pos (regexLiteral_encode k hk)]
      cases hscan : Cookie.cookieScan (encodeURIComponent k).data (renderJar st.jar) with
      | none => exact ⟨o.defaultValue, rfl⟩
      | some cap =>
        dsimp only
        rw [if_pos hraw]
        exact ⟨some (String.mk cap), rfl⟩
  · rw [get_eq_find st k o hwf hk]
    cases hf : st.jar.find? (fun e => e.1 == encodeURIComponent k) with
    | none => exact ⟨o.defaultValue, rfl⟩
    | some e =>
      dsimp only
      by_cases hraw : o.raw = true
      · rw [if_pos hraw]
        exact ⟨some e.2, rfl⟩
      · rw [if_neg hraw]
        have hmem : e ∈ st.jar := List.mem_of_find?_eq_some hf
        have hds := hdec e hmem
        cases hd : decodeURIComponent e.2 with
        | none => rw [hd] at hds; simp at hds
        | some w => exact ⟨some w, rfl⟩

/-- Witness for the amended C5 at a concrete raw lookup. -/
theorem c5_amended_witness :
    ∃ r, Cookie.get ⟨{}, 0, []⟩ ("k") { raw := true } = Except.ok r :=
  c5_amended_no_throw ⟨{}, 0, []⟩ ("k") { raw := true }
    (by unfold regexSafeKey; decide) (Or.inl rfl)

/-- C6 counterexample: the unmatched opening parenthesis in this key makes
the lookup regular expression built by get fail to parse, so on a
non-empty store get throws the modelled SyntaxError instead of returning
the default value of the absent key. -/
theorem c6_counterexample :
    Cookie.get ⟨{}, 0, [(("a" : String), ("b" : String))]⟩ ("a(") {} =
        Except.error JsError.invalidRegex ∧
      ¬ Cookie.get ⟨{}, 0, [(("a" : String), ("b" : String))]⟩ ("a(") {} =
        Except.ok (none : Option String) := by
  refine ⟨by rfl, ?_⟩
  intro h
  rw [show Cookie.get ⟨{}, 0, [(("a" : String), ("b" : String))]⟩ ("a(") {} =
      Except.error JsError.invalidRegex from rfl] at h
  simp at h

/-- C6 amended: for keys whose percent-encoding is free of the
regular-expression metacharacters that survive encoding, get returns the
default value exactly when the store holds no entry for the encoded key
(in particular when it is empty), and otherwise the stored value,
percent-decoded unless raw; unset followed by get with a null default
returns null.  For other keys the lookup regular expression can fail to
parse or miss entries. -/
theorem c6_get_default_or_stored :
    (∀ (st : CookieState) (k : String) (o : GetOptions), wfJar st.jar → regexSafeKey k →
      (st.jar.find? (fun e => e.1 == encodeURIComponent k) = none →
        Cookie.get st k o = Except.ok o.defaultValue) ∧
      (∀ e, st.jar.find? (fun e2 => e2.1 == encodeURIComponent k) = some e →
        (o.raw = true → Cookie.get st k o = Except.ok (some e.2)) ∧
        (∀ w, decodeURIComponent e.2 = some w → o.raw = false →
          Cookie.get st k o = Except.ok (some w)))) ∧
    (∀ (st : CookieState) (k : String), st.options = {} → wfJar st.jar → regexSafeKey k →
      Cookie.get (Cookie.unset st k {}) k { defaultValue := none, raw := false } =
        Except.ok none) := by
  constructor
  · intro st k o hwf hk
    constructor
    · intro hnone
      rw [get_eq_find st k o hwf hk, hnone]
    · intro e hsome
      constructor
      · intro hraw
        rw [get_eq_find st k o hwf hk, hsome]
        dsimp only
        rw [if_pos hraw]
      · intro w hdec hrawf
        rw [get_eq_find st k o hwf hk, hsome]
        dsimp only
        rw [if_neg (by rw [hrawf]; simp), hdec]
  · intro st k hopt hwf hk
    have hjar := unset_jar_clean st k hopt
    rw [get_eq_find (Cookie.unset st k {}) k _ (by
      rw [hjar]
      exact wfJar_filter st.jar _ hwf) hk]
    rw [hjar, find?_filter_ne st.jar (encodeURIComponent k)]

/-- Witness for C6 at a concrete stored cookie. -/
theorem c6_witness :
    Cookie.get ⟨{}, 0, [(("foo" : String), ("bar" : String))]⟩ ("foo") {} =
      Except.ok (some ("bar")) :=
  ((c6_get_default_or_stored.1 ⟨{}, 0, [(("foo" : String), ("bar" : String))]⟩ ("foo") {}
      (by
        intro e he
        simp at he
        subst he
        exact ⟨by unfold goodName; decide, by unfold goodValue; decide⟩)
      (by unfold regexSafeKey; decide)).2
    (("foo" : String), ("bar" : String)) (by rfl)).2 ("bar") (by rfl) rfl

/-- C7: a null value forces days to minus one and an expires date in the
past; an integer days field computes expires as the current date plus days;
and unset is exactly set with the null sentinel. -/
theorem c7_null_forces_expiry :
    (∀ (now : Int) (opts : SetOptions),
      (effectiveOptions now opts none).days = some (-1) ∧
        (effectiveOptions now opts none).expires = some (now + (-1)) ∧
        now + (-1) < now) ∧
    (∀ (now : Int) (opts : SetOptions) (value : Option String) (d : Int),
      opts.days = some d → value.isSome = true →
      (effectiveOptions now opts value).expires = some (now + d)) ∧
    (∀ (st : CookieState) (k : String) (o : SetOptions),
      Cookie.unset st k o = Cookie.set st k none o) := by
  refine ⟨fun now opts => ⟨rfl, rfl, by omega⟩,
    fun now opts value d hd hv => ?_, fun st k o => rfl⟩
  unfold effectiveOptions
  cases value with
  | none => simp at hv
  | some s =>
    rw [if_neg (by simp)]
    dsimp only
    rw [hd]

/-- Witness for C7 at concrete options with an integer days field. -/
theorem c7_witness :
    (effectiveOptions 0 { days := some 3 } (some ("x"))).expires = some (0 + 3) :=
  c7_null_forces_expiry.2.1 0 { days := some 3 } (some ("x")) 3 rfl rfl

/-- C8: the string set writes is the name-value pair followed, in this
fixed order and only when present and truthy, by the expires, path, domain
and secure attributes; configuring secure and setting foo to bar writes
the string with secure as the trailing attribute. -/
theorem c8_serialization_order :
    (∀ (st : CookieState) (k : String) (v : Option String) (o : SetOptions),
      Cookie.writtenCookie st k v o =
        joinSegs (cookieSegments (encodeURIComponent k)
          (if (effectiveOptions st.now (mergeOptions st.options o) v).raw = some true then
            (match v with | some s => s | none => "null")
          else encodeURIComponent (match v with | some s => s | none => "null"))
          (effectiveOptions st.now (mergeOptions st.options o) v))) ∧
    (∀ (sk sv : String) (opts : SetOptions),
      cookieSegments sk sv opts =
        [sk.data ++ '=' :: sv.data] ++
          (match opts.expires with
           | some d => [("expires=".data) ++ dateChars d]
           | none => []) ++
          (match opts.path with
           | some p => if p = "" then [] else [("path=".data) ++ p.data]
           | none => []) ++
          (match opts.domain with
           | some p => if p = "" then [] else [("domain=".data) ++ p.data]
           | none => []) ++
          (if opts.secure = some true then [("secure".data)] else [])) ∧
    (∀ st : CookieState,
      Cookie.writtenCookie (Cookie.configure st { secure := some true }) ("foo")
        (some ("bar")) {} = ("foo=bar; secure").data) := by
  exact ⟨fun st k v o => rfl, fun sk sv opts => rfl, fun st => rfl⟩
